import Mathlib

/-!
# Long division of big integers (`src/libFuzzer/fuzz_me.cc`)

A shallow embedding of `division_check`, `sign_fixup` and `divide` from
`src/libFuzzer/fuzz_me.cc`, and theorems about them.

* A machine word is a natural number below `2 ^ W`; `W` stands for
  `BOTAN_MP_WORD_BITS`, a build-time constant of the library, and is a parameter
  of every definition that depends on it.
* A `Botan::BigInt` is an arbitrary-precision signed integer, embedded as `Int`:
  the sign is `Negative` exactly when the value is below zero, and the magnitude
  is `Int.natAbs`. Words of the magnitude are its base `2 ^ W` digits.
* `size_t` values are natural numbers; subtraction on them wraps around below
  zero (`size_sub`), as it does in the source for `t - 1` and `j - 2`.
* The functions of `bigint.h`, `divide.h` and `mp_core.h` that the source calls
  are not part of `src/`; each is modelled from the specification and marked so.
* `divide_iterations` lists the iterations of the digit loop in a run of
  `divide` (index `j` and state on entry); `divide_run_eq_loop` relates it to
  `divide_run`.
* `divide_events` lists the conditions evaluated and the word indices used by
  the statements of the source in a run of `divide`, in order; the library
  functions are values, and what they do inside is not listed.
* `divide_run` is `divide` with ghost fields (loop iterations, `division_check`
  evaluations, size of the quotient, outcomes of the branch conditions
  evaluated); `divide` is its projection to the pair `(q, r)`.
-/

namespace Botan

/-! ## Words, masks and `size_t` -/

/-- Errors that `divide` and the helpers it calls can raise. `Internal_Error` is
a failed `BOTAN_ASSERT_NOMSG`; `Out_Of_Bounds` stands for a write through
`q_words` outside the words `q` was grown to. -/
inductive DivError where
  | DivideByZero
  | Invalid_Argument
  | Internal_Error
  | Out_Of_Bounds
  deriving DecidableEq, Repr

/-- Modelled from the spec: `MP_WORD_MAX`, the maximum representable word value. -/
def MP_WORD_MAX (W : Nat) : Nat := 2 ^ W - 1

/-- Modelled from the spec: `SIZE_MAX`, the largest `size_t` (64-bit). -/
def SIZE_MAX : Nat := 2 ^ 64 - 1

/-- Subtraction of `size_t` values: wraps around when the result would be
negative, as `t - 1` does in the source for `t = 0`. -/
def size_sub (a b : Nat) : Nat :=
  if b ≤ a then a - b else a + (SIZE_MAX + 1) - b

/-- Subtraction of words, `qjt -= ...` in the source: modulo `2 ^ W`. -/
def word_sub (W a b : Nat) : Nat := (a + 2 ^ W - b % 2 ^ W) % 2 ^ W

/-- Modelled from the spec: a constant-time mask, all bits set for `true` and
all bits clear for `false` (`CT::Mask<word>::expand`). -/
def ct_expand (W : Nat) (b : Bool) : Nat := if b then MP_WORD_MAX W else 0

/-- Modelled from the spec: `CT::Mask<word>::is_equal`. -/
def ct_is_equal (W x y : Nat) : Nat := ct_expand W (x == y)

/-- Modelled from the spec: `CT::Mask<word>::is_lt`. -/
def ct_is_lt (W x y : Nat) : Nat := ct_expand W (decide (x < y))

/-- Modelled from the spec: `Mask::select(x, y)`, a bitwise selection between two
precomputed values: `x` where the mask is set, `y` where it is clear. -/
def ct_select (W mask x y : Nat) : Nat :=
  (x &&& mask) ||| (y &&& (mask ^^^ MP_WORD_MAX W))

/-- Modelled from the spec: `Mask::is_set`. -/
def ct_is_set (mask : Nat) : Bool := mask != 0

/-- Modelled from the spec: `word_madd2(a, b, &c)`, multiply-accumulate with a
carry-out word: returns the low word of `a * b + c` and the new carry, its
high word. -/
def word_madd2 (W a b c : Nat) : Nat × Nat :=
  ((a * b + c) % 2 ^ W, ((a * b + c) / 2 ^ W) % 2 ^ W)

/-- Modelled from the spec: the loop of `bigint_ct_is_lt` over the common words,
least significant first: a later (more significant) word overrides the
verdict unless the two words are equal. -/
def bigint_ct_is_lt_loop (W : Nat) : List Nat → List Nat → Nat → Nat
  | xi :: xs, yi :: ys, is_lt =>
      bigint_ct_is_lt_loop W xs ys
        (ct_select W (ct_is_equal W xi yi) is_lt (ct_is_lt W xi yi))
  | _, _, is_lt => is_lt

/-- Modelled from the spec: `bigint_ct_is_lt(x, 3, y, 3)`, the constant-time
less-than predicate over two word arrays of the same size. -/
def bigint_ct_is_lt (W : Nat) (x y : List Nat) : Nat :=
  bigint_ct_is_lt_loop W x y (ct_expand W false)

/-- Modelled from the spec: `bigint_divop(n1, n0, d)`, the double-word by
single-word division that returns a single quotient word; a zero `d` is an
`Invalid_Argument`. -/
def bigint_divop (W n1 n0 d : Nat) : Except DivError Nat :=
  if d = 0 then .error .Invalid_Argument
  else .ok (((n1 * 2 ^ W + n0) / d) % 2 ^ W)

/-! ## The big-integer container -/

/-- A `Botan::BigInt`: an arbitrary-precision signed integer. -/
abbrev BigInt := Int

/-- The sign of a `BigInt`. -/
inductive Sign where
  | Negative
  | Positive
  deriving DecidableEq, Repr

/-- Modelled from the spec: `BigInt::sign`; zero is `Positive`. -/
def sign (x : BigInt) : Sign := if x < 0 then .Negative else .Positive

/-- Modelled from the spec: `BigInt::is_negative`. -/
def is_negative (x : BigInt) : Bool := decide (x < 0)

/-- Modelled from the spec: `BigInt::is_zero`. -/
def is_zero (x : BigInt) : Bool := decide (x = 0)

/-- Modelled from the spec: `BigInt::is_nonzero`. -/
def is_nonzero (x : BigInt) : Bool := !is_zero x

/-- Modelled from the spec: `BigInt::abs`. -/
def abs (x : BigInt) : BigInt := (x.natAbs : Int)

/-- Modelled from the spec: `BigInt::set_sign(Positive)`. -/
def set_sign_positive (x : BigInt) : BigInt := (x.natAbs : Int)

/-- Modelled from the spec: `BigInt::cond_flip_sign`, the conditional sign flip. -/
def cond_flip_sign (q : BigInt) (predicate : Bool) : BigInt :=
  if predicate then -q else q

/-- Number of base `2 ^ W` digits of `m`, by repeated division (`fuel` bounds
the number of steps; `m` itself is enough). -/
def sig_words_aux (W : Nat) : Nat → Nat → Nat
  | 0, _ => 0
  | fuel + 1, m => if m = 0 then 0 else sig_words_aux W fuel (m / 2 ^ W) + 1

/-- Modelled from the spec: `BigInt::sig_words`, the count of words up to and
including the most significant nonzero word, 0 for zero. -/
def sig_words (W : Nat) (x : BigInt) : Nat := sig_words_aux W x.natAbs x.natAbs

/-- Modelled from the spec: `BigInt::word_at(n)`, the word at index `n`, 0 past
the end. -/
def word_at (W : Nat) (x : BigInt) (n : Nat) : Nat :=
  if n < sig_words W x then (x.natAbs / 2 ^ (W * n)) % 2 ^ W else 0

/-- Number of bits of `n` up to and including its highest set bit. -/
def high_bit_aux : Nat → Nat → Nat
  | 0, _ => 0
  | fuel + 1, n => if n = 0 then 0 else high_bit_aux fuel (n / 2) + 1

/-- Modelled from the spec: `high_bit(word)`, the position (from 1) of the
highest set bit of a word, 0 for the zero word. -/
def high_bit (W n : Nat) : Nat := high_bit_aux W n

/-- Modelled from the spec: `BigInt::top_bits_free`, the number of leading zero
bits in the most significant word. -/
def top_bits_free (W : Nat) (x : BigInt) : Nat :=
  let words := sig_words W x
  let top_word := word_at W x (size_sub words 1)
  let bits_used := high_bit W top_word
  W - bits_used

/-- Modelled from the spec: left shift of a `BigInt` by a bit count (the
magnitude is shifted, the sign kept). -/
def shl (x : BigInt) (s : Nat) : BigInt := x * 2 ^ s

/-- Modelled from the spec: right shift of a `BigInt` by a bit count (the
magnitude is shifted, the sign kept). -/
def shr (x : BigInt) (s : Nat) : BigInt :=
  if x < 0 then -((x.natAbs / 2 ^ s : Nat) : Int) else ((x.natAbs / 2 ^ s : Nat) : Int)

/-- Modelled from the spec: `BigInt::reduce_below(p, ws)`, "reduce below a bound
and report quotient count": subtracts `p` until the value is below `p`, and
returns how many times it did. Both values must be positive. -/
def reduce_below (r p : BigInt) : Except DivError (Nat × BigInt) :=
  if is_negative p || is_negative r then .error .Invalid_Argument
  else .ok (r.natAbs / p.natAbs, ((r.natAbs % p.natAbs : Nat) : Int))

/-- Value of a little-endian sequence of words. -/
def words_value (W : Nat) : List Nat → Nat
  | [] => 0
  | w :: ws => w + 2 ^ W * words_value W ws

/-- A write `q_words[i] = v` through `mutable_data()`: inside the words the
integer was grown to. -/
def set_word (ws : List Nat) (i v : Nat) : Except DivError (List Nat) :=
  if i < ws.length then .ok (ws.set i v) else .error .Out_Of_Bounds

/-! ## `division_check`, `sign_fixup`, `divide` -/

/-- The correction check, lines 13-29: compute `(y3,y2,y1) = (y2,y1) * q` and
return true if `(y3,y2,y1) > (x3,x2,x1)`. -/
def division_check (W q y2 y1 x3 x2 x1 : Nat) : Bool :=
  let y3 := 0
  let (y1, y3) := word_madd2 W q y1 y3
  let (y2, y3) := word_madd2 W q y2 y3
  let x := [x1, x2, x3]
  let y := [y1, y2, y3]
  ct_is_set (bigint_ct_is_lt W x y)

/-- The sign fixup, lines 35-44. -/
def sign_fixup (x y q r : BigInt) : BigInt × BigInt :=
  let q := cond_flip_sign q (sign x != sign y)
  if is_negative x && is_nonzero r then
    (q - 1, abs y - r)
  else
    (q, r)

/-- Outcomes of the branch conditions of `sign_fixup`, in evaluation order:
`x.is_negative()`, then (only when that holds) `r.is_nonzero()`. -/
def sign_fixup_branches (x r : BigInt) : List Bool :=
  if is_negative x then [true, is_nonzero r] else [false]

/-- The working state of the digit loop of `divide`, with ghost counters. -/
structure LoopState where
  /-- The running remainder `r`. -/
  r : BigInt
  /-- The divisor at the current alignment, `shifted_y`. -/
  shifted_y : BigInt
  /-- The words of the quotient, `q_words`. -/
  q_words : List Nat
  /-- Ghost: number of loop bodies run. -/
  iterations : Nat
  /-- Ghost: number of `division_check` evaluations. -/
  checks : Nat
  /-- Ghost: outcomes of the branch conditions evaluated, oldest first. -/
  branches : List Bool
  deriving Repr

/-- One iteration of the digit loop, lines 91-110, for the index `j`. -/
def loop_body (W y_t0 y_t1 t j : Nat) (s : LoopState) : Except DivError LoopState := do
  let x_j0 := word_at W s.r j
  let x_j1 := word_at W s.r (size_sub j 1)
  let x_j2 := word_at W s.r (size_sub j 2)
  let qjt ← bigint_divop W x_j0 x_j1 y_t0
  let qjt := ct_select W (ct_is_equal W x_j0 y_t0) (MP_WORD_MAX W) qjt
  let qjt := word_sub W qjt (division_check W qjt y_t0 y_t1 x_j0 x_j1 x_j2).toNat
  let qjt := word_sub W qjt (division_check W qjt y_t0 y_t1 x_j0 x_j1 x_j2).toNat
  let shifted_y := shr s.shifted_y W
  let r := s.r - (qjt : Int) * shifted_y
  let qjt := word_sub W qjt (is_negative r).toNat
  let r := r + ((is_negative r).toNat : Int) * shifted_y
  let q_words ← set_word s.q_words (size_sub (size_sub j t) 1) qjt
  pure { r := r, shifted_y := shifted_y, q_words := q_words,
         iterations := s.iterations + 1, checks := s.checks + 2,
         branches := s.branches }

/-- The digit loop `for(size_t j = n; j != t; --j)`, lines 90-111, by recursion
on `j`. Were `j` to reach 0 without meeting `t`, the body would write
`q_words[0 - t - 1]`, outside the quotient. -/
def digit_loop (W y_t0 y_t1 t : Nat) : Nat → LoopState → Except DivError LoopState
  | 0, s =>
      if 0 = t then .ok { s with branches := s.branches ++ [false] }
      else .error .Out_Of_Bounds
  | j + 1, s =>
      if j + 1 = t then .ok { s with branches := s.branches ++ [false] }
      else do
        let s ← loop_body W y_t0 y_t1 t (j + 1) { s with branches := s.branches ++ [true] }
        digit_loop W y_t0 y_t1 t j s

/-- The result of a run of `divide`, with the ghost counters. -/
structure Run where
  /-- The quotient `q_out`. -/
  q : BigInt
  /-- The remainder `r_out`. -/
  r : BigInt
  /-- Ghost: number of iterations of the digit loop. -/
  iterations : Nat
  /-- Ghost: number of `division_check` evaluations. -/
  checks : Nat
  /-- Ghost: number of words the quotient was grown to. -/
  q_size : Nat
  /-- Ghost: outcomes of the branch conditions evaluated, oldest first. -/
  branches : List Bool
  deriving Repr

/-- The function `divide`, lines 51-119, with ghost counters. -/
def divide_run (W : Nat) (x y_arg : BigInt) : Except DivError Run :=
  if is_zero y_arg then .error .DivideByZero
  else do
    let y_words := sig_words W y_arg
    unless 0 < y_words do throw DivError.Internal_Error
    let y := y_arg
    let r := x
    let r := set_sign_positive r
    let y := set_sign_positive y
    let shifts := top_bits_free W y
    let y := shl y shifts
    let r := shl r shifts
    let t := size_sub y_words 1
    let n := size_sub (max y_words (sig_words W r)) 1
    let q_words := List.replicate (size_sub n t + 1) 0
    let shifted_y := shl y (W * size_sub n t)
    let (reductions, r) ← reduce_below r shifted_y
    let q_words ← set_word q_words (size_sub n t) (reductions % 2 ^ W)
    let y_t0 := word_at W y t
    let y_t1 := word_at W y (size_sub t 1)
    let s ← digit_loop W y_t0 y_t1 t n
      { r := r, shifted_y := shifted_y, q_words := q_words,
        iterations := 0, checks := 0, branches := [false] }
    let r := shr s.r shifts
    let q : BigInt := (words_value W s.q_words : Int)
    let fixup_branches := sign_fixup_branches x r
    let (q, r) := sign_fixup x y_arg q r
    pure { q := q, r := r, iterations := s.iterations, checks := s.checks,
           q_size := s.q_words.length,
           branches := s.branches ++ fixup_branches }

/-- The function `divide`: `.ok (q_out, r_out)`, or the error raised. -/
def divide (W : Nat) (x y_arg : BigInt) : Except DivError (BigInt × BigInt) :=
  (divide_run W x y_arg).map (fun s => (s.q, s.r))

/-- The normalisation shift `shifts` of `divide`, line 69. -/
def divide_shifts (W : Nat) (y_arg : BigInt) : Nat :=
  top_bits_free W (set_sign_positive y_arg)

/-- The index `t` of `divide`, line 75. -/
def divide_t (W : Nat) (y_arg : BigInt) : Nat :=
  size_sub (sig_words W y_arg) 1

/-- The index `n` of `divide`, line 76. -/
def divide_n (W : Nat) (x y_arg : BigInt) : Nat :=
  size_sub (max (sig_words W y_arg)
    (sig_words W (shl (set_sign_positive x) (divide_shifts W y_arg)))) 1

/-! ## Reference definitions, from the specification -/

/-- The loop of the schoolbook reference: subtract `y` from `r` until `r` is
below `y`, counting the subtractions in `q` (`fuel` bounds the number of
subtractions). -/
def schoolbook_loop : Nat → Nat → Nat → Nat → Nat × Nat
  | 0, q, r, _ => (q, r)
  | fuel + 1, q, r, y => if r < y then (q, r) else schoolbook_loop fuel (q + 1) (r - y) y

/-- The "slow, unoptimized schoolbook-subtraction reference implementation" of
the specification, for `x ≥ 0` and `y > 0`: the number of times `y` can be
subtracted from `x`, and what is left. -/
def schoolbook_divide (x y : Nat) : Nat × Nat := schoolbook_loop x 0 x y

/-- The "straightforward machine-word division" of the specification: the
quotient and remainder of unsigned `W`-bit words. -/
def machine_word_divide (W x y : Nat) : Nat × Nat :=
  ((x % 2 ^ W) / (y % 2 ^ W) % 2 ^ W, (x % 2 ^ W) % (y % 2 ^ W) % 2 ^ W)

/-- Modelled from the spec: `BigInt::bits`, the bit length of the magnitude. -/
def bits (x : BigInt) : Nat := high_bit_aux x.natAbs x.natAbs

/-- The iterations of the digit loop `for(size_t j = n; j != t; --j)`: the
index `j` and the state on entry of each run of the body, in order. It follows
`digit_loop` step by step. -/
def digit_loop_log (W y_t0 y_t1 t : Nat) : Nat → LoopState → List (Nat × LoopState)
  | 0, _ => []
  | j + 1, s =>
      if j + 1 = t then []
      else
        (j + 1, { s with branches := s.branches ++ [true] }) ::
          match loop_body W y_t0 y_t1 t (j + 1) { s with branches := s.branches ++ [true] } with
          | .ok s1 => digit_loop_log W y_t0 y_t1 t j s1
          | .error _ => []

/-- The raw estimate of a quotient digit, lines 95-97 of the loop body: the
double-word quotient of `bigint_divop`, saturated to `MP_WORD_MAX` when
`x_j0 = y_t0`. -/
def loop_estimate (W y_t0 x_j0 x_j1 : Nat) : Except DivError Nat := do
  let qjt ← bigint_divop W x_j0 x_j1 y_t0
  let qjt := ct_select W (ct_is_equal W x_j0 y_t0) (MP_WORD_MAX W) qjt
  pure qjt

/-- One correction step `qjt -= division_check(qjt, y_t0, y_t1, x_j0, x_j1, x_j2)`,
line 100 (and again line 101) of the loop body. -/
def loop_correct (W qjt y_t0 y_t1 x_j0 x_j1 x_j2 : Nat) : Nat :=
  word_sub W qjt (division_check W qjt y_t0 y_t1 x_j0 x_j1 x_j2).toNat

/-- The normalised dividend `r` of `divide`, after line 72. -/
def divide_r (W : Nat) (x y_arg : BigInt) : BigInt :=
  shl (set_sign_positive x) (divide_shifts W y_arg)

/-- The normalised divisor `y` of `divide`, after line 71. -/
def divide_y (W : Nat) (y_arg : BigInt) : BigInt :=
  shl (set_sign_positive y_arg) (divide_shifts W y_arg)

/-- The state of `divide` on entry of the digit loop, lines 59-88. -/
def divide_entry (W : Nat) (x y_arg : BigInt) : Except DivError LoopState := do
  let y_words := sig_words W y_arg
  let y := y_arg
  let r := x
  let r := set_sign_positive r
  let y := set_sign_positive y
  let shifts := top_bits_free W y
  let y := shl y shifts
  let r := shl r shifts
  let t := size_sub y_words 1
  let n := size_sub (max y_words (sig_words W r)) 1
  let q_words := List.replicate (size_sub n t + 1) 0
  let shifted_y := shl y (W * size_sub n t)
  let (reductions, r) ← reduce_below r shifted_y
  let q_words ← set_word q_words (size_sub n t) (reductions % 2 ^ W)
  pure { r := r, shifted_y := shifted_y, q_words := q_words,
         iterations := 0, checks := 0, branches := [false] }

/-- The iterations of the digit loop in a run of `divide`: the index `j` and the
state on entry of each run of the body. -/
def divide_iterations (W : Nat) (x y_arg : BigInt) : List (Nat × LoopState) :=
  match divide_entry W x y_arg with
  | .ok s =>
      digit_loop_log W (word_at W (divide_y W y_arg) (divide_t W y_arg))
        (word_at W (divide_y W y_arg) (size_sub (divide_t W y_arg) 1))
        (divide_t W y_arg) (divide_n W x y_arg) s
  | .error _ => []

/-- Modelled from the spec: `BigInt::decode(buf, length)`, which decodes a byte
buffer as an unsigned big-endian integer. -/
def decode (buf : List Nat) : BigInt :=
  ((buf.foldl (fun acc b => acc * 256 + b % 256) 0 : Nat) : Int)

/-- The fuzz entry point, lines 121-130: the value returned, or the error that
`divide` raises. -/
def LLVMFuzzerTestOneInput (W : Nat) (Data : List Nat) : Except DivError Int := do
  let Size := Data.length
  let x := decode (Data.take (Size / 2))
  let y := decode ((Data.drop (Size / 2)).take (Size / 2))
  let _ ← divide W x y
  pure 0

/-! ## The conditions and word indices of a run -/

/-- The state of `divide` on exit of the digit loop, line 111. -/
def divide_exit (W : Nat) (x y_arg : BigInt) : Except DivError LoopState := do
  let s ← divide_entry W x y_arg
  digit_loop W (word_at W (divide_y W y_arg) (divide_t W y_arg))
    (word_at W (divide_y W y_arg) (size_sub (divide_t W y_arg) 1))
    (divide_t W y_arg) (divide_n W x y_arg) s

theorem two_pow_pos_word (W : Nat) : 0 < 2 ^ W := Nat.pow_pos (by decide)

theorem one_lt_two_pow_word {W : Nat} (hW : 0 < W) : 1 < 2 ^ W :=
  Nat.one_lt_two_pow (Nat.pos_iff_ne_zero.mp hW)

theorem ct_expand_lt (W : Nat) (b : Bool) : ct_expand W b < 2 ^ W := by
  have := two_pow_pos_word W
  cases b <;> simp [ct_expand, MP_WORD_MAX]

theorem ct_select_expand (W : Nat) (b : Bool) (x y : Nat) (hx : x < 2 ^ W) (hy : y < 2 ^ W) :
    ct_select W (ct_expand W b) x y = if b then x else y := by
  cases b
  · simp [ct_select, ct_expand, MP_WORD_MAX, Nat.and_pow_two_sub_one_eq_mod, Nat.mod_eq_of_lt hy]
  · simp [ct_select, ct_expand, MP_WORD_MAX, Nat.and_pow_two_sub_one_eq_mod, Nat.mod_eq_of_lt hx]

theorem ct_is_set_expand {W : Nat} (hW : 0 < W) (b : Bool) : ct_is_set (ct_expand W b) = b := by
  have := one_lt_two_pow_word hW
  cases b
  · simp [ct_is_set, ct_expand]
  · simp [ct_is_set, ct_expand, MP_WORD_MAX]; omega

theorem ct_expand_ite (W : Nat) (c : Prop) [Decidable c] (a b : Bool) :
    (if c then ct_expand W a else ct_expand W b) = ct_expand W (if c then a else b) := by
  split <;> rfl

/-- One step of a most-significant-first comparison: the higher digits decide
unless they are equal. -/
theorem lt_digit_step (L a b x y : Nat) (ha : a < L) (hb : b < L) :
    (if x = y then decide (a < b) else decide (x < y)) = decide (x * L + a < y * L + b) := by
  by_cases h : x = y
  · subst h; simp
  · rw [if_neg h]
    rcases Nat.lt_or_gt_of_ne h with h1 | h1
    · have h2 : x * L + a < y * L + b := by
        have : (x + 1) * L ≤ y * L := Nat.mul_le_mul_right L h1
        rw [Nat.add_mul] at this
        omega
      simp [h1, h2]
    · have h2 : ¬ (x * L + a < y * L + b) := by
        have : (y + 1) * L ≤ x * L := Nat.mul_le_mul_right L h1
        rw [Nat.add_mul] at this
        omega
      have h3 : ¬ x < y := by omega
      simp [h3, h2]

/-- The mask loop of `bigint_ct_is_lt` on three words decides the comparison of
the three-word values. -/
theorem bigint_ct_is_lt_three {W : Nat} (x1 x2 x3 y1 y2 y3 : Nat)
    (hx1 : x1 < 2 ^ W) (hx2 : x2 < 2 ^ W) (hy1 : y1 < 2 ^ W) (hy2 : y2 < 2 ^ W) :
    bigint_ct_is_lt W [x1, x2, x3] [y1, y2, y3]
      = ct_expand W (decide (x3 * (2 ^ W * 2 ^ W) + (x2 * 2 ^ W + x1)
                              < y3 * (2 ^ W * 2 ^ W) + (y2 * 2 ^ W + y1))) := by
  have hB := two_pow_pos_word W
  simp only [bigint_ct_is_lt, bigint_ct_is_lt_loop, ct_is_equal, ct_is_lt]
  rw [ct_select_expand W _ _ _ (ct_expand_lt W _) (ct_expand_lt W _)]
  simp only [beq_iff_eq]
  rw [ct_expand_ite, show (if x1 = y1 then false else decide (x1 < y1)) = decide (x1 < y1) by
    by_cases h : x1 = y1 <;> simp [h]]
  rw [ct_select_expand W _ _ _ (ct_expand_lt W _) (ct_expand_lt W _)]
  simp only [beq_iff_eq]
  rw [ct_expand_ite, lt_digit_step (2 ^ W) x1 y1 x2 y2 hx1 hy1]
  rw [ct_select_expand W _ _ _ (ct_expand_lt W _) (ct_expand_lt W _)]
  simp only [beq_iff_eq]
  rw [ct_expand_ite, lt_digit_step (2 ^ W * 2 ^ W) _ _ x3 y3]
  · have : (x2 + 1) * 2 ^ W ≤ 2 ^ W * 2 ^ W := Nat.mul_le_mul_right _ hx2
    rw [Nat.add_mul] at this
    omega
  · have : (y2 + 1) * 2 ^ W ≤ 2 ^ W * 2 ^ W := Nat.mul_le_mul_right _ hy2
    rw [Nat.add_mul] at this
    omega

/-- The correction check compares the exact three-word product `q * (y2, y1)`
with `(x3, x2, x1)`. -/
theorem division_check_eq {W : Nat} (hW : 0 < W) (q y2 y1 x3 x2 x1 : Nat)
    (hq : q < 2 ^ W) (hy2 : y2 < 2 ^ W) (hy1 : y1 < 2 ^ W)
    (hx2 : x2 < 2 ^ W) (hx1 : x1 < 2 ^ W) :
    division_check W q y2 y1 x3 x2 x1
      = decide (x3 * (2 ^ W * 2 ^ W) + (x2 * 2 ^ W + x1) < q * (y2 * 2 ^ W + y1)) := by
  have hB := two_pow_pos_word W
  simp only [division_check, word_madd2, Nat.add_zero]
  rw [bigint_ct_is_lt_three _ _ _ _ _ _ hx1 hx2 (Nat.mod_lt _ hB) (Nat.mod_lt _ hB),
    ct_is_set_expand hW]
  have hc1 : q * y1 / 2 ^ W < 2 ^ W := by
    apply Nat.div_lt_of_lt_mul
    exact Nat.mul_lt_mul_of_lt_of_lt hq hy1
  rw [Nat.mod_eq_of_lt hc1]
  have hc2 : (q * y2 + q * y1 / 2 ^ W) / 2 ^ W < 2 ^ W := by
    apply Nat.div_lt_of_lt_mul
    obtain ⟨M, hM⟩ : ∃ M, 2 ^ W = M + 1 := ⟨2 ^ W - 1, by omega⟩
    rw [hM] at hq hy2 hc1 ⊢
    have : q * y2 ≤ M * M := Nat.mul_le_mul (by omega) (by omega)
    nlinarith
  rw [Nat.mod_eq_of_lt hc2]
  congr 2
  have e1 := Nat.div_add_mod (q * y1) (2 ^ W)
  have e2 := Nat.div_add_mod (q * y2 + q * y1 / 2 ^ W) (2 ^ W)
  generalize q * y1 / 2 ^ W = c1 at *
  generalize q * y1 % 2 ^ W = l1 at *
  generalize (q * y2 + c1) / 2 ^ W = c2 at *
  generalize (q * y2 + c1) % 2 ^ W = l2 at *
  generalize 2 ^ W = B at *
  nlinarith

/-! ## Word counts and normalisation -/

theorem sig_words_aux_spec {W : Nat} (hW : 0 < W) :
    ∀ (fuel m : Nat), m ≤ fuel →
      m < (2 ^ W) ^ sig_words_aux W fuel m ∧
      (m ≠ 0 → 0 < sig_words_aux W fuel m ∧ (2 ^ W) ^ (sig_words_aux W fuel m - 1) ≤ m) := by
  have hB := one_lt_two_pow_word hW
  intro fuel
  induction fuel with
  | zero =>
    intro m hm
    have : m = 0 := by omega
    subst this
    simp [sig_words_aux]
  | succ fuel ih =>
    intro m hm
    by_cases h0 : m = 0
    · subst h0; simp [sig_words_aux]
    · have hlt : m / 2 ^ W < m := Nat.div_lt_self (Nat.pos_of_ne_zero h0) hB
      obtain ⟨h1, h2⟩ := ih (m / 2 ^ W) (by omega)
      simp only [sig_words_aux, if_neg h0]
      refine ⟨?_, fun _ => ⟨Nat.succ_pos _, ?_⟩⟩
      · rw [pow_succ]
        exact (Nat.div_lt_iff_lt_mul (by omega)).mp h1
      · rw [Nat.add_sub_cancel]
        by_cases h3 : m / 2 ^ W = 0
        · rw [h3]
          cases fuel <;> simp [sig_words_aux] <;> omega
        · obtain ⟨h4, h5⟩ := h2 h3
          have h6 : (2 ^ W) ^ (sig_words_aux W fuel (m / 2 ^ W) - 1) * 2 ^ W ≤ m :=
            le_trans (Nat.mul_le_mul_right _ h5) (Nat.div_mul_le_self m (2 ^ W))
          rw [← pow_succ] at h6
          rwa [show sig_words_aux W fuel (m / 2 ^ W) - 1 + 1
                 = sig_words_aux W fuel (m / 2 ^ W) by omega] at h6

/-- The magnitude is below `B ^ sig_words`. -/
theorem lt_pow_sig_words {W : Nat} (hW : 0 < W) (x : Int) :
    x.natAbs < (2 ^ W) ^ sig_words W x :=
  (sig_words_aux_spec hW _ _ (Nat.le_refl _)).1

theorem sig_words_pos {W : Nat} (hW : 0 < W) (x : Int) (hx : x ≠ 0) : 0 < sig_words W x :=
  ((sig_words_aux_spec hW _ _ (Nat.le_refl _)).2 (Int.natAbs_ne_zero.mpr hx)).1

/-- A nonzero magnitude is at least `B ^ (sig_words - 1)`. -/
theorem pow_sig_words_le {W : Nat} (hW : 0 < W) (x : Int) (hx : x ≠ 0) :
    (2 ^ W) ^ (sig_words W x - 1) ≤ x.natAbs :=
  ((sig_words_aux_spec hW _ _ (Nat.le_refl _)).2 (Int.natAbs_ne_zero.mpr hx)).2

/-- A magnitude below `B ^ k` has at most `k` significant words. -/
theorem sig_words_le {W : Nat} (hW : 0 < W) (x : Int) (k : Nat)
    (h : x.natAbs < (2 ^ W) ^ k) : sig_words W x ≤ k := by
  by_cases hx : x = 0
  · subst hx; simp [sig_words, sig_words_aux]
  · by_contra hk
    have h1 := pow_sig_words_le hW x hx
    have h2 : (2 ^ W) ^ k ≤ (2 ^ W) ^ (sig_words W x - 1) :=
      Nat.pow_le_pow_right (two_pow_pos_word W) (by omega)
    omega

/-- The word at index `n` is the base `2 ^ W` digit of the magnitude. -/
theorem word_at_eq {W : Nat} (hW : 0 < W) (x : Int) (n : Nat) :
    word_at W x n = x.natAbs / (2 ^ W) ^ n % 2 ^ W := by
  unfold word_at
  rw [pow_mul]
  split
  · rfl
  · rename_i h
    have h1 := lt_pow_sig_words hW x
    have h2 : (2 ^ W) ^ sig_words W x ≤ (2 ^ W) ^ n :=
      Nat.pow_le_pow_right (two_pow_pos_word W) (by omega)
    rw [Nat.div_eq_of_lt (by omega)]
    simp

theorem word_at_lt (W : Nat) (x : Int) (n : Nat) : word_at W x n < 2 ^ W := by
  unfold word_at
  split
  · exact Nat.mod_lt _ (two_pow_pos_word W)
  · exact two_pow_pos_word W

/-- A read past the significant words yields 0. -/
theorem word_at_eq_zero {W : Nat} (hW : 0 < W) (x : Int) (n k : Nat)
    (h : x.natAbs < (2 ^ W) ^ k) (hk : k ≤ n) : word_at W x n = 0 := by
  unfold word_at
  rw [if_neg]
  have := sig_words_le hW x k h
  omega

theorem high_bit_aux_spec :
    ∀ (fuel n : Nat), n < 2 ^ fuel →
      high_bit_aux fuel n ≤ fuel ∧ n < 2 ^ high_bit_aux fuel n ∧
      (n ≠ 0 → 0 < high_bit_aux fuel n ∧ 2 ^ (high_bit_aux fuel n - 1) ≤ n) := by
  intro fuel
  induction fuel with
  | zero =>
    intro n hn
    have : n = 0 := by simpa using hn
    subst this
    simp [high_bit_aux]
  | succ fuel ih =>
    intro n hn
    by_cases h0 : n = 0
    · subst h0; simp [high_bit_aux]
    · have hlt : n / 2 < 2 ^ fuel := by
        rw [pow_succ] at hn
        omega
      obtain ⟨h1, h2, h3⟩ := ih (n / 2) hlt
      simp only [high_bit_aux, if_neg h0]
      refine ⟨by omega, ?_, fun _ => ⟨Nat.succ_pos _, ?_⟩⟩
      · rw [pow_succ]; omega
      · rw [Nat.add_sub_cancel]
        by_cases h4 : n / 2 = 0
        · rw [h4]
          have : high_bit_aux fuel 0 = 0 := by cases fuel <;> simp [high_bit_aux]
          rw [this]
          simp
          omega
        · obtain ⟨h5, h6⟩ := h3 h4
          have : 2 ^ (high_bit_aux fuel (n / 2) - 1 + 1) ≤ n := by
            rw [pow_succ]; omega
          rwa [show high_bit_aux fuel (n / 2) - 1 + 1 = high_bit_aux fuel (n / 2) by omega]
            at this

theorem size_sub_of_le {a b : Nat} (h : b ≤ a) : size_sub a b = a - b := by
  simp [size_sub, h]

/-- Normalisation: shifting a nonzero divisor left by `top_bits_free` sets the top
bit of its most significant word and keeps its word count. -/
theorem top_bits_free_spec {W : Nat} (hW : 0 < W) (y : Int) (hy : y ≠ 0) :
    top_bits_free W y < W ∧
    y.natAbs * 2 ^ top_bits_free W y < (2 ^ W) ^ sig_words W y ∧
    (2 ^ W) ^ sig_words W y ≤ 2 * (y.natAbs * 2 ^ top_bits_free W y) := by
  have hk := sig_words_pos hW y hy
  have h1 := lt_pow_sig_words hW y
  have h2 := pow_sig_words_le hW y hy
  obtain ⟨k, hk1⟩ : ∃ k, sig_words W y = k + 1 := ⟨sig_words W y - 1, by omega⟩
  have hP : 0 < (2 ^ W) ^ k := Nat.pow_pos (two_pow_pos_word W)
  simp only [top_bits_free, high_bit]
  rw [hk1] at h1 h2 ⊢
  rw [size_sub_of_le (by omega), Nat.add_sub_cancel, word_at_eq hW]
  rw [Nat.add_sub_cancel] at h2
  rw [pow_succ] at h1
  have htop : y.natAbs / (2 ^ W) ^ k < 2 ^ W :=
    Nat.div_lt_of_lt_mul h1
  rw [Nat.mod_eq_of_lt htop]
  have htop0 : y.natAbs / (2 ^ W) ^ k ≠ 0 := by
    have := (Nat.le_div_iff_mul_le hP).mpr (by simpa using h2 : 1 * (2 ^ W) ^ k ≤ y.natAbs)
    omega
  obtain ⟨g1, g2, g3⟩ := high_bit_aux_spec W _ htop
  obtain ⟨g4, g5⟩ := g3 htop0
  have e1 := Nat.div_add_mod y.natAbs ((2 ^ W) ^ k)
  have e2 := Nat.mod_lt y.natAbs hP
  rw [pow_succ]
  generalize y.natAbs / (2 ^ W) ^ k = top at *
  generalize high_bit_aux W top = h at *
  generalize (2 ^ W) ^ k = P at *
  obtain ⟨s, hs⟩ : ∃ s, W = h + s := ⟨W - h, by omega⟩
  have hs2 : W - h = s := by omega
  rw [hs2]
  obtain ⟨h', hh⟩ : ∃ h', h = h' + 1 := ⟨h - 1, by omega⟩
  subst hh
  rw [Nat.add_sub_cancel] at g5
  have eB : 2 ^ W = 2 ^ h' * 2 * 2 ^ s := by rw [hs, pow_add, pow_succ]
  rw [pow_succ] at g2
  have hs0 : 0 < 2 ^ s := Nat.pow_pos (by decide)
  rw [eB]
  generalize 2 ^ s = S at *
  generalize 2 ^ h' = H at *
  refine ⟨by omega, ?_, ?_⟩
  · have a1 : y.natAbs < (top + 1) * P := by nlinarith
    have a2 : (top + 1) * P ≤ H * 2 * P := Nat.mul_le_mul_right _ (by omega)
    have a3 : y.natAbs * S < H * 2 * P * S := Nat.mul_lt_mul_of_pos_right (by omega) hs0
    nlinarith
  · have a1 : H * P ≤ top * P := Nat.mul_le_mul_right _ g5
    have a2 : top * P ≤ y.natAbs := by rw [Nat.mul_comm]; omega
    have a3 : H * P * S ≤ y.natAbs * S := Nat.mul_le_mul_right _ (by omega)
    nlinarith

/-! ## Arithmetic of one quotient digit -/

/-- The digits of `a` from index `m` up, together with the digit below them (0
when there is none), bracket `a * B` at the alignment `B ^ m`. -/
theorem top_digits_scaled (B a m : Nat) (hB : 0 < B) :
    (a / B ^ m * B + (if 1 ≤ m then a / B ^ (m - 1) % B else 0)) * B ^ m ≤ a * B ∧
    a * B < (a / B ^ m * B + (if 1 ≤ m then a / B ^ (m - 1) % B else 0) + 1) * B ^ m := by
  cases m with
  | zero => simp
  | succ m =>
    have hP : 0 < B ^ m := Nat.pow_pos hB
    simp only [Nat.le_add_left, if_true, Nat.add_sub_cancel]
    have e1 : a / B ^ (m + 1) * B + a / B ^ m % B = a / B ^ m := by
      rw [pow_succ, ← Nat.div_div_eq_div_mul, Nat.mul_comm]
      exact Nat.div_add_mod _ _
    rw [e1, pow_succ]
    have e2 := Nat.div_add_mod a (B ^ m)
    have e3 := Nat.mod_lt a hP
    generalize a / B ^ m = F at *
    generalize a % B ^ m = R at *
    generalize B ^ m = P at *
    constructor
    · have : F * (P * B) = (P * F) * B := by ring
      rw [this]
      exact Nat.mul_le_mul_right _ (by omega)
    · have : (F + 1) * (P * B) = (P * F + P) * B := by ring
      rw [this]
      exact Nat.mul_lt_mul_of_pos_right (by omega) hB

/-- The saturated estimate of a quotient digit: below `B`, its product with the
top divisor word does not exceed the top two remainder words, and it is the
largest word with that property. -/
theorem estimate_spec (B v1 u2 u1 : Nat) (hv1 : v1 < B) (hv : 0 < v1) (hu2 : u2 ≤ v1)
    (hu1 : u1 < B) :
    (if u2 = v1 then B - 1 else (u2 * B + u1) / v1 % B) < B ∧
    (if u2 = v1 then B - 1 else (u2 * B + u1) / v1 % B) * v1 ≤ u2 * B + u1 ∧
    ∀ qt, qt < B → qt * v1 ≤ u2 * B + u1 →
      qt ≤ (if u2 = v1 then B - 1 else (u2 * B + u1) / v1 % B) := by
  by_cases h : u2 = v1
  · subst h
    simp only [if_true]
    refine ⟨by omega, ?_, fun qt hqt _ => by omega⟩
    have : (B - 1) * u2 ≤ B * u2 := Nat.mul_le_mul_right _ (by omega)
    rw [Nat.mul_comm u2 B]
    omega
  · simp only [if_neg h]
    have hlt : (u2 * B + u1) / v1 < B := by
      apply Nat.div_lt_of_lt_mul
      have : (u2 + 1) * B ≤ v1 * B := Nat.mul_le_mul_right _ (by omega)
      rw [Nat.add_mul] at this
      omega
    rw [Nat.mod_eq_of_lt hlt]
    refine ⟨hlt, Nat.div_mul_le_self _ _, fun qt _ h2 => ?_⟩
    exact (Nat.le_div_iff_mul_le hv).mpr h2

/-- Two applications of the correction check suffice (HAC 14.23): starting from
an estimate `qhat` whose product with the top divisor word does not exceed the
top two remainder words, with the divisor normalised, the twice-corrected
digit passes the check; no decrement wraps below zero; and the digit stays at
or above every `qt` that passes the check. -/
theorem two_checks_spec (B v1 v0 u2 u1 u0 qhat : Nat)
    (hn : B ≤ 2 * v1) (hv0 : v0 < B)
    (hq : qhat < B) (hq1 : qhat * v1 ≤ u2 * B + u1) :
    let c1 := decide (u2 * (B * B) + (u1 * B + u0) < qhat * (v1 * B + v0))
    let q1 := qhat - c1.toNat
    let c2 := decide (u2 * (B * B) + (u1 * B + u0) < q1 * (v1 * B + v0))
    let q2 := q1 - c2.toNat
    (c1 = true → 0 < qhat) ∧ (c2 = true → 0 < q1) ∧
    q2 * (v1 * B + v0) ≤ u2 * (B * B) + (u1 * B + u0) ∧
    q2 ≤ qhat ∧
    ∀ qt, qt ≤ qhat → qt * (v1 * B + v0) ≤ u2 * (B * B) + (u1 * B + u0) → qt ≤ q2 := by
  intro c1 q1 c2 q2
  have mono : ∀ a b : Nat, a ≤ b → a * (v1 * B + v0) ≤ b * (v1 * B + v0) :=
    fun a b h => Nat.mul_le_mul_right _ h
  by_cases h1 : u2 * (B * B) + (u1 * B + u0) < qhat * (v1 * B + v0)
  · have hc1 : c1 = true := by simp [c1, h1]
    have hqpos : 0 < qhat := by
      rcases Nat.eq_zero_or_pos qhat with h | h
      · rw [h] at h1; simp at h1
      · exact h
    have hq1' : q1 = qhat - 1 := by simp [q1, hc1]
    by_cases h2 : u2 * (B * B) + (u1 * B + u0) < q1 * (v1 * B + v0)
    · have hc2 : c2 = true := by simp [c2, h2]
      have hq1pos : 0 < q1 := by
        rcases Nat.eq_zero_or_pos q1 with h | h
        · rw [h] at h2; simp at h2
        · exact h
      have hq2' : q2 = qhat - 2 := by simp [q2, hc2, hq1']; omega
      refine ⟨fun _ => hqpos, fun _ => hq1pos, ?_, by omega, ?_⟩
      · by_contra hcon
        rw [hq2'] at hcon
        obtain ⟨p, hp⟩ : ∃ p, qhat = p + 2 := ⟨qhat - 2, by omega⟩
        subst hp
        simp only [Nat.add_sub_cancel] at hcon
        have a1 : (p + 2) * v1 * B ≤ (u2 * B + u1) * B := Nat.mul_le_mul_right _ hq1
        have a2 : p * v0 ≤ p * B := Nat.mul_le_mul_left _ (by omega)
        have a3 : p * B ≤ B * B := Nat.mul_le_mul_right _ (by omega)
        have a4 : B * B ≤ 2 * v1 * B := Nat.mul_le_mul_right _ hn
        nlinarith
      · intro qt hqt hqt1
        by_contra hcon
        have : q1 ≤ qt := by omega
        have := mono _ _ this
        omega
    · have hc2 : c2 = false := by simp [c2, h2]
      have hq2' : q2 = q1 := by simp [q2, hc2]
      refine ⟨fun _ => hqpos, fun h => by simp [hc2] at h, by rw [hq2']; omega, by omega, ?_⟩
      intro qt hqt hqt1
      by_contra hcon
      have : qhat ≤ qt := by omega
      have := mono _ _ this
      omega
  · have hc1 : c1 = false := by simp [c1, h1]
    have hq1' : q1 = qhat := by simp [q1, hc1]
    have hc2 : c2 = false := by simp [c2, hq1', h1]
    have hq2' : q2 = qhat := by simp [q2, hc2, hq1']
    refine ⟨fun h => by simp [hc1] at h, fun h => by simp [hc2] at h, by rw [hq2']; omega,
      by omega, fun qt hqt _ => by omega⟩

/-- The words read by one iteration of the digit loop, for a normalised
divisor `Yn` of `t + 1` words and a remainder `r` below `Yn * B ^ (k + 1)`: the
top divisor word has its high bit set and bounds the top remainder word, and
the true digit `r / (Yn * B ^ k)` passes the correction check while the true
digit plus 2 does not. -/
theorem digit_words_spec (B H Yn r t k : Nat) (hB : B = 2 * H) (hH : 0 < H)
    (hY1 : Yn < B ^ (t + 1)) (hY2 : H * B ^ t ≤ Yn) (hr : r < Yn * B ^ (k + 1)) :
    let v1 := Yn / B ^ t % B
    let v0 := if 1 ≤ t then Yn / B ^ (t - 1) % B else 0
    let u2 := r / B ^ (t + k + 1) % B
    let u1 := r / B ^ (t + k) % B
    let u0 := if 1 ≤ t + k then r / B ^ (t + k - 1) % B else 0
    let qt := r / (Yn * B ^ k)
    v1 < B ∧ 0 < v1 ∧ B ≤ 2 * v1 ∧ v0 < B ∧ u2 ≤ v1 ∧ u1 < B ∧ u0 < B ∧ qt < B ∧
    qt * (v1 * B + v0) ≤ u2 * (B * B) + (u1 * B + u0) ∧
    u2 * (B * B) + (u1 * B + u0) < (qt + 2) * (v1 * B + v0) := by
  intro v1 v0 u2 u1 u0 qt
  have hB0 : 0 < B := by omega
  have hPt : 0 < B ^ t := Nat.pow_pos hB0
  have hPk : 0 < B ^ k := Nat.pow_pos hB0
  have hYn : 0 < Yn := lt_of_lt_of_le (Nat.mul_pos hH hPt) hY2
  have hS : 0 < Yn * B ^ k := Nat.mul_pos hYn hPk
  -- the top divisor word
  have hv1lt : Yn / B ^ t < B := Nat.div_lt_of_lt_mul (by rwa [pow_succ] at hY1)
  have hv1 : v1 = Yn / B ^ t := Nat.mod_eq_of_lt hv1lt
  have hv1H : H ≤ v1 := by rw [hv1]; exact (Nat.le_div_iff_mul_le hPt).mpr hY2
  have hv0 : v0 < B := by
    simp only [v0]; split
    · exact Nat.mod_lt _ hB0
    · exact hB0
  have hu0 : u0 < B := by
    simp only [u0]; split
    · exact Nat.mod_lt _ hB0
    · exact hB0
  -- the top remainder word
  have hrlt : r < B ^ (t + k + 1) * B := by
    have : Yn * B ^ (k + 1) < B ^ (t + 1) * B ^ (k + 1) :=
      Nat.mul_lt_mul_of_pos_right hY1 (Nat.pow_pos hB0)
    have e : B ^ (t + 1) * B ^ (k + 1) = B ^ (t + k + 1) * B := by
      rw [← pow_add, ← pow_succ]; congr 1; omega
    omega
  have hu2lt : r / B ^ (t + k + 1) < B := Nat.div_lt_of_lt_mul hrlt
  have hu2 : u2 = r / B ^ (t + k + 1) := Nat.mod_eq_of_lt hu2lt
  have hu2v1 : u2 ≤ v1 := by
    rw [hu2, hv1]
    have e : B ^ (t + k + 1) = B ^ (k + 1) * B ^ t := by rw [← pow_add]; congr 1; omega
    rw [e, ← Nat.div_div_eq_div_mul]
    apply Nat.div_le_div_right
    have : r / B ^ (k + 1) < Yn := Nat.div_lt_of_lt_mul (by rwa [Nat.mul_comm] at hr)
    omega
  -- the brackets of the two-word divisor and the three-word remainder
  obtain ⟨hV1, hV2⟩ := top_digits_scaled B Yn t hB0
  obtain ⟨hU1, hU2⟩ := top_digits_scaled B r (t + k) hB0
  have eU : r / B ^ (t + k) = u2 * B + u1 := by
    rw [hu2]
    have := Nat.div_add_mod (r / B ^ (t + k)) B
    rw [Nat.div_div_eq_div_mul, ← pow_succ, Nat.mul_comm] at this
    exact this.symm
  rw [eU] at hU1 hU2
  rw [← hv1] at hV1 hV2
  have eU2 : (u2 * B + u1) * B + u0 = u2 * (B * B) + (u1 * B + u0) := by ring
  change (v1 * B + v0) * B ^ t ≤ Yn * B at hV1
  change Yn * B < (v1 * B + v0 + 1) * B ^ t at hV2
  change ((u2 * B + u1) * B + u0) * B ^ (t + k) ≤ r * B at hU1
  change r * B < ((u2 * B + u1) * B + u0 + 1) * B ^ (t + k) at hU2
  rw [eU2] at hU1 hU2
  -- the true digit
  have hq1 : qt * (Yn * B ^ k) ≤ r := Nat.div_mul_le_self _ _
  have hq2 : r < (qt + 1) * (Yn * B ^ k) :=
    (Nat.div_lt_iff_lt_mul hS).mp (Nat.lt_succ_self _)
  have hqtB : qt < B := Nat.div_lt_of_lt_mul (by rwa [pow_succ, ← Nat.mul_assoc] at hr)
  have hVB : B ≤ v1 * B + v0 := by
    have : 1 * B ≤ v1 * B := Nat.mul_le_mul_right _ (by omega)
    omega
  rw [pow_add] at hU1 hU2
  have hPP : 0 < B ^ t * B ^ k := Nat.mul_pos hPt hPk
  generalize v1 * B + v0 = V at *
  generalize u2 * (B * B) + (u1 * B + u0) = U at *
  generalize B ^ t = Pt at *
  generalize B ^ k = Pk at *
  refine ⟨by omega, by omega, by omega, hv0, hu2v1, Nat.mod_lt _ hB0, hu0, hqtB, ?_, ?_⟩
  · have a1 : qt * V * (Pt * Pk) ≤ r * B := by
      calc qt * V * (Pt * Pk) = qt * (V * Pt) * Pk := by ring
        _ ≤ qt * (Yn * B) * Pk :=
            Nat.mul_le_mul_right _ (Nat.mul_le_mul_left _ hV1)
        _ = qt * (Yn * Pk) * B := by ring
        _ ≤ r * B := Nat.mul_le_mul_right _ hq1
    have a2 : qt * V * (Pt * Pk) < (U + 1) * (Pt * Pk) := lt_of_le_of_lt a1 hU2
    have := Nat.lt_of_mul_lt_mul_right a2
    omega
  · have a1 : r * B < (qt + 1) * (V + 1) * (Pt * Pk) := by
      calc r * B < (qt + 1) * (Yn * Pk) * B := Nat.mul_lt_mul_of_pos_right hq2 hB0
        _ = (qt + 1) * Pk * (Yn * B) := by ring
        _ < (qt + 1) * Pk * ((V + 1) * Pt) :=
            Nat.mul_lt_mul_of_pos_left hV2 (Nat.mul_pos (Nat.succ_pos _) hPk)
        _ = (qt + 1) * (V + 1) * (Pt * Pk) := by ring
    have a2 : U * (Pt * Pk) < (qt + 1) * (V + 1) * (Pt * Pk) := lt_of_le_of_lt hU1 a1
    have a3 := Nat.lt_of_mul_lt_mul_right a2
    have a4 : (qt + 1) * (V + 1) ≤ (qt + 2) * V := by
      have : (qt + 1) * (V + 1) = (qt + 1) * V + (qt + 1) := by ring
      have : (qt + 2) * V = (qt + 1) * V + V := by ring
      omega
    omega

/-! ## One iteration of the digit loop -/

/-- Subtracting a 0/1 flag from a word does not wrap when the flag is only set
for a positive word. -/
theorem word_sub_flag (W q : Nat) (b : Bool) (hq : q < 2 ^ W) (hb : b = true → 0 < q) :
    word_sub W q b.toNat = q - b.toNat := by
  unfold word_sub
  cases b
  · simp [Nat.mod_eq_of_lt hq]
  · have := hb rfl
    simp only [Bool.toNat_true]
    by_cases h1 : 1 < 2 ^ W
    · rw [Nat.mod_eq_of_lt h1, show q + 2 ^ W - 1 = (q - 1) + 2 ^ W by omega,
        Nat.add_mod_right, Nat.mod_eq_of_lt (by omega)]
    · omega

/-- The subtraction of `qjt * shifted_y` and the add-back: when the corrected
digit is the true digit or one more, the stored digit is the true digit and
the remainder is the true remainder. -/
theorem add_back_spec (W rn S q2 : Nat) (hS : 0 < S) (hq2 : q2 < 2 ^ W)
    (h1 : rn / S ≤ q2) (h2 : q2 ≤ rn / S + 1) :
    word_sub W q2 (is_negative ((rn : Int) - (q2 : Int) * (S : Int))).toNat = rn / S ∧
    ((rn : Int) - (q2 : Int) * (S : Int))
        + ((is_negative ((rn : Int) - (q2 : Int) * (S : Int))).toNat : Int) * (S : Int)
      = ((rn % S : Nat) : Int) := by
  have e1 := Nat.div_add_mod rn S
  have e2 := Nat.mod_lt rn hS
  generalize rn / S = qd at *
  generalize rn % S = rm at *
  subst e1
  have e4 : ((rm : Int)) < (S : Int) := by exact_mod_cast e2
  have e5 : (0 : Int) ≤ (rm : Int) := Int.ofNat_nonneg _
  rcases Nat.eq_or_lt_of_le h1 with h | h
  · subst h
    have e : ((S * qd + rm : Nat) : Int) - (qd : Int) * (S : Int) = (rm : Int) := by
      push_cast; ring
    rw [e]
    have hneg : is_negative (rm : Int) = false := by
      simp only [is_negative, decide_eq_false_iff_not, not_lt]
      exact e5
    rw [hneg, word_sub_flag W qd false hq2 (by simp)]
    simp
  · have hq : q2 = qd + 1 := by omega
    subst hq
    have e : ((S * qd + rm : Nat) : Int) - ((qd + 1 : Nat) : Int) * (S : Int)
        = (rm : Int) - (S : Int) := by
      push_cast; ring
    rw [e]
    have hneg : is_negative ((rm : Int) - (S : Int)) = true := by
      simp only [is_negative, decide_eq_true_eq]
      linarith
    rw [hneg, word_sub_flag W (qd + 1) true hq2 (fun _ => by omega)]
    simp

theorem shr_natCast (a s : Nat) : shr (a : Int) s = ((a / 2 ^ s : Nat) : Int) := by
  have : ¬ ((a : Int) < 0) := by omega
  simp [shr, this]

theorem shl_natCast (a s : Nat) : shl (a : Int) s = ((a * 2 ^ s : Nat) : Int) := by
  simp [shl]

/-- One iteration of the digit loop divides the running remainder by the
divisor at the new alignment: it stores the digit `rn / (Yn * B ^ k)` at index
`k` and leaves the remainder `rn % (Yn * B ^ k)`. -/
theorem loop_body_spec {W : Nat} (hW : 0 < W) (Yn rn t k : Nat) (s : LoopState)
    (hY1 : Yn < (2 ^ W) ^ (t + 1)) (hY2 : 2 ^ (W - 1) * (2 ^ W) ^ t ≤ Yn)
    (hr : s.r = (rn : Int)) (hrn : rn < Yn * (2 ^ W) ^ (k + 1))
    (hsy : s.shifted_y = ((Yn * (2 ^ W) ^ (k + 1) : Nat) : Int))
    (hlen : k < s.q_words.length) :
    loop_body W (word_at W (Yn : Int) t) (word_at W (Yn : Int) (size_sub t 1)) t (t + k + 1) s
      = .ok { r := ((rn % (Yn * (2 ^ W) ^ k) : Nat) : Int),
              shifted_y := ((Yn * (2 ^ W) ^ k : Nat) : Int),
              q_words := s.q_words.set k (rn / (Yn * (2 ^ W) ^ k)),
              iterations := s.iterations + 1,
              checks := s.checks + 2,
              branches := s.branches } := by
  have hB0 := two_pow_pos_word W
  have hBH : 2 ^ W = 2 * 2 ^ (W - 1) := by
    rw [← pow_succ']; congr 1; omega
  have hH : 0 < 2 ^ (W - 1) := Nat.pow_pos (by decide)
  obtain ⟨g1, g2, g3, g4, g5, g6, g7, g8, g9, g10⟩ :=
    digit_words_spec (2 ^ W) (2 ^ (W - 1)) Yn rn t k hBH hH hY1 hY2 hrn
  -- the words read
  have ex0 : word_at W s.r (t + k + 1) = rn / (2 ^ W) ^ (t + k + 1) % 2 ^ W := by
    rw [hr, word_at_eq hW]; rfl
  have ex1 : word_at W s.r (size_sub (t + k + 1) 1) = rn / (2 ^ W) ^ (t + k) % 2 ^ W := by
    rw [hr, size_sub_of_le (by omega), word_at_eq hW]; rfl
  have ex2 : word_at W s.r (size_sub (t + k + 1) 2)
      = if 1 ≤ t + k then rn / (2 ^ W) ^ (t + k - 1) % 2 ^ W else 0 := by
    rw [hr]
    split
    · rw [size_sub_of_le (by omega), word_at_eq hW]
      rw [show t + k + 1 - 2 = t + k - 1 by omega]; rfl
    · have ht : t = 0 := by omega
      have hk : k = 0 := by omega
      subst ht hk
      apply word_at_eq_zero hW _ _ 2
      · simp only [Int.natAbs_ofNat]
        simp only [Nat.zero_add, pow_one] at hrn hY1
        calc rn < Yn * 2 ^ W := hrn
          _ < 2 ^ W * 2 ^ W := Nat.mul_lt_mul_of_pos_right hY1 hB0
          _ = (2 ^ W) ^ 2 := by ring
      · decide
  have ey0 : word_at W (Yn : Int) t = Yn / (2 ^ W) ^ t % 2 ^ W := by
    rw [word_at_eq hW]; rfl
  have ey1 : word_at W (Yn : Int) (size_sub t 1)
      = if 1 ≤ t then Yn / (2 ^ W) ^ (t - 1) % 2 ^ W else 0 := by
    split
    · rw [size_sub_of_le (by omega), word_at_eq hW]; rfl
    · have ht : t = 0 := by omega
      subst ht
      apply word_at_eq_zero hW _ _ 1
      · simpa using hY1
      · decide
  unfold loop_body
  rw [ex0, ex1, ex2, ey0, ey1]
  generalize rn / (2 ^ W) ^ (t + k + 1) % 2 ^ W = u2 at *
  generalize rn / (2 ^ W) ^ (t + k) % 2 ^ W = u1 at *
  generalize (if 1 ≤ t + k then rn / (2 ^ W) ^ (t + k - 1) % 2 ^ W else 0) = u0 at *
  generalize Yn / (2 ^ W) ^ t % 2 ^ W = v1 at *
  generalize (if 1 ≤ t then Yn / (2 ^ W) ^ (t - 1) % 2 ^ W else 0) = v0 at *
  have hS : 0 < Yn * (2 ^ W) ^ k :=
    Nat.mul_pos (lt_of_lt_of_le (Nat.mul_pos hH (Nat.pow_pos hB0)) hY2) (Nat.pow_pos hB0)
  generalize hqt : rn / (Yn * (2 ^ W) ^ k) = qt at *
  have ed : bigint_divop W u2 u1 v1 = .ok ((u2 * 2 ^ W + u1) / v1 % 2 ^ W) := by
    simp [bigint_divop, Nat.pos_iff_ne_zero.mp g2]
  dsimp only
  rw [ed]
  simp only [bind, Except.bind]
  -- the saturated estimate
  have esel : ct_select W (ct_is_equal W u2 v1) (MP_WORD_MAX W) ((u2 * 2 ^ W + u1) / v1 % 2 ^ W)
      = if u2 = v1 then 2 ^ W - 1 else (u2 * 2 ^ W + u1) / v1 % 2 ^ W := by
    rw [ct_is_equal, ct_select_expand W _ _ _ (by unfold MP_WORD_MAX; omega) (Nat.mod_lt _ hB0)]
    simp [MP_WORD_MAX]
  rw [esel]
  obtain ⟨f1, f2, f3⟩ := estimate_spec (2 ^ W) v1 u2 u1 g1 g2 g5 g6
  generalize (if u2 = v1 then 2 ^ W - 1 else (u2 * 2 ^ W + u1) / v1 % 2 ^ W) = qhat at *
  have hqt_le : qt ≤ qhat := by
    apply f3 qt g8
    have a1 : qt * v1 * 2 ^ W ≤ qt * (v1 * 2 ^ W + v0) := by
      rw [Nat.mul_assoc]; exact Nat.mul_le_mul_left _ (by omega)
    have a2 : qt * v1 * 2 ^ W < (u2 * 2 ^ W + u1 + 1) * 2 ^ W := by
      have : (u2 * 2 ^ W + u1 + 1) * 2 ^ W = u2 * (2 ^ W * 2 ^ W) + (u1 * 2 ^ W + 2 ^ W) := by
        ring
      omega
    have := Nat.lt_of_mul_lt_mul_right a2
    omega
  -- the two correction checks
  have tc := two_checks_spec (2 ^ W) v1 v0 u2 u1 u0 qhat g3 g4 f1 f2
  dsimp only at tc
  obtain ⟨c1, c2, c3, c4, c5⟩ := tc
  rw [division_check_eq hW qhat v1 v0 u2 u1 u0 f1 g1 g4 g6 g7, word_sub_flag W qhat _ f1 c1]
  generalize hq1 : qhat - (decide (u2 * (2 ^ W * 2 ^ W) + (u1 * 2 ^ W + u0)
      < qhat * (v1 * 2 ^ W + v0))).toNat = q1 at *
  have f1' : q1 < 2 ^ W := by omega
  rw [division_check_eq hW q1 v1 v0 u2 u1 u0 f1' g1 g4 g6 g7, word_sub_flag W q1 _ f1' c2]
  generalize hq2 : q1 - (decide (u2 * (2 ^ W * 2 ^ W) + (u1 * 2 ^ W + u0)
      < q1 * (v1 * 2 ^ W + v0))).toNat = q2 at *
  have hq2lt : q2 < 2 ^ W := lt_of_le_of_lt c4 f1
  have h1 : qt ≤ q2 := c5 qt hqt_le g9
  have h2 : q2 ≤ qt + 1 := by
    have a1 : q2 * (v1 * 2 ^ W + v0) < (qt + 2) * (v1 * 2 ^ W + v0) := by omega
    have := Nat.lt_of_mul_lt_mul_right a1
    omega
  -- the remainder update
  have esh : shr s.shifted_y W = ((Yn * (2 ^ W) ^ k : Nat) : Int) := by
    rw [hsy, shr_natCast, pow_succ, ← Nat.mul_assoc, Nat.mul_div_cancel _ hB0]
  rw [esh, hr]
  subst hqt
  obtain ⟨b1, b2⟩ := add_back_spec W rn (Yn * (2 ^ W) ^ k) q2 hS hq2lt h1 h2
  rw [b1, b2]
  have eidx : size_sub (size_sub (t + k + 1) t) 1 = k := by
    rw [size_sub_of_le (show t ≤ t + k + 1 by omega), size_sub_of_le (by omega)]; omega
  rw [eidx]
  simp [set_word, hlen, pure, Except.pure]

/-! ## The digit loop -/

theorem words_value_append (W : Nat) (a b : List Nat) :
    words_value W (a ++ b) = words_value W a + (2 ^ W) ^ a.length * words_value W b := by
  induction a with
  | nil => simp [words_value]
  | cons w ws ih =>
    show words_value W (w :: (ws ++ b)) = _
    rw [words_value, words_value, ih, List.length_cons, pow_succ]
    ring

theorem set_replicate_append (k d : Nat) (hi : List Nat) :
    (List.replicate (k + 1) 0 ++ hi).set k d = List.replicate k 0 ++ d :: hi := by
  induction k with
  | zero => rfl
  | succ k ih =>
    rw [List.replicate_succ, List.cons_append, List.set_cons_succ, ih]
    rfl

theorem digit_loop_self (W y_t0 y_t1 t : Nat) (s : LoopState) :
    digit_loop W y_t0 y_t1 t t s = .ok { s with branches := s.branches ++ [false] } := by
  cases t <;> simp [digit_loop]

theorem digit_loop_succ (W y_t0 y_t1 t k : Nat) (s : LoopState) :
    digit_loop W y_t0 y_t1 t (t + k + 1) s
      = (loop_body W y_t0 y_t1 t (t + k + 1) { s with branches := s.branches ++ [true] }).bind
          (digit_loop W y_t0 y_t1 t (t + k)) := by
  rw [digit_loop]
  rw [if_neg (by omega)]
  rfl

/-- Splitting a division by `Yn * P` into the digit at alignment `P` and the rest. -/
theorem div_mod_split (rn Yn P : Nat) (hYn : 0 < Yn) :
    rn % (Yn * P) / Yn + P * (rn / (Yn * P)) = rn / Yn ∧ rn % (Yn * P) % Yn = rn % Yn := by
  have e := Nat.div_add_mod rn (Yn * P)
  constructor
  · conv_rhs => rw [← e, Nat.mul_assoc, Nat.mul_add_div hYn]
    omega
  · exact Nat.mod_mul_right_mod _ _ _

/-- The digit loop: started at `j = t + k` on a remainder `rn` below
`Yn * B ^ k`, it runs `k` iterations, fills the `k` low words of the quotient
with the digits of `rn / Yn`, and leaves the remainder `rn % Yn`. -/
theorem digit_loop_spec {W : Nat} (hW : 0 < W) (Yn t : Nat)
    (hY1 : Yn < (2 ^ W) ^ (t + 1)) (hY2 : 2 ^ (W - 1) * (2 ^ W) ^ t ≤ Yn) :
    ∀ (k : Nat) (s : LoopState) (rn : Nat) (hi : List Nat),
      s.r = (rn : Int) → rn < Yn * (2 ^ W) ^ k →
      s.shifted_y = ((Yn * (2 ^ W) ^ k : Nat) : Int) →
      s.q_words = List.replicate k 0 ++ hi →
      ∃ lo : List Nat, lo.length = k ∧ words_value W lo = rn / Yn ∧
        (∀ w ∈ lo, w < 2 ^ W) ∧
        digit_loop W (word_at W (Yn : Int) t) (word_at W (Yn : Int) (size_sub t 1)) t (t + k) s
          = .ok { r := ((rn % Yn : Nat) : Int),
                  shifted_y := (Yn : Int),
                  q_words := lo ++ hi,
                  iterations := s.iterations + k,
                  checks := s.checks + 2 * k,
                  branches := s.branches ++ List.replicate k true ++ [false] } := by
  have hB0 := two_pow_pos_word W
  have hYn : 0 < Yn :=
    lt_of_lt_of_le (Nat.mul_pos (Nat.pow_pos (by decide)) (Nat.pow_pos hB0)) hY2
  intro k
  induction k with
  | zero =>
    intro s rn hi hr hrn hsy hq
    refine ⟨[], rfl, ?_, by simp, ?_⟩
    · simp only [pow_zero, Nat.mul_one] at hrn
      simp [words_value, Nat.div_eq_of_lt hrn]
    · simp only [pow_zero, Nat.mul_one] at hrn hsy
      rw [Nat.add_zero, digit_loop_self]
      simp only [List.replicate_zero, List.nil_append] at hq
      simp [Nat.mod_eq_of_lt hrn, ← hr, ← hsy, ← hq]
  | succ k ih =>
    intro s rn hi hr hrn hsy hq
    have hlen : k < s.q_words.length := by
      rw [hq]; simp; omega
    have hb := loop_body_spec hW Yn rn t k { s with branches := s.branches ++ [true] }
      hY1 hY2 hr hrn hsy hlen
    have hS : 0 < Yn * (2 ^ W) ^ k := Nat.mul_pos hYn (Nat.pow_pos hB0)
    have hd : rn / (Yn * (2 ^ W) ^ k) < 2 ^ W :=
      Nat.div_lt_of_lt_mul (by rwa [pow_succ, ← Nat.mul_assoc] at hrn)
    obtain ⟨lo, h1, h2, h3, h4⟩ := ih
      { r := ((rn % (Yn * (2 ^ W) ^ k) : Nat) : Int),
        shifted_y := ((Yn * (2 ^ W) ^ k : Nat) : Int),
        q_words := List.replicate k 0 ++ (rn / (Yn * (2 ^ W) ^ k)) :: hi,
        iterations := s.iterations + 1,
        checks := s.checks + 2,
        branches := s.branches ++ [true] }
      (rn % (Yn * (2 ^ W) ^ k)) ((rn / (Yn * (2 ^ W) ^ k)) :: hi) rfl (Nat.mod_lt _ hS) rfl rfl
    obtain ⟨e1, e2⟩ := div_mod_split rn Yn ((2 ^ W) ^ k) hYn
    refine ⟨lo ++ [rn / (Yn * (2 ^ W) ^ k)], by simp [h1], ?_, ?_, ?_⟩
    · rw [words_value_append, h2, h1]
      simp only [words_value, Nat.mul_zero, Nat.add_zero]
      exact e1
    · intro w hw
      rcases List.mem_append.mp hw with h | h
      · exact h3 w h
      · simp only [List.mem_singleton] at h
        rw [h]; exact hd
    · rw [← Nat.add_assoc, digit_loop_succ, hb]
      simp only [hq, set_replicate_append]
      show digit_loop W _ _ t (t + k) _ = _
      rw [h4, e2]
      simp only [List.append_assoc, List.singleton_append, List.replicate_succ,
        List.cons_append, Except.ok.injEq, LoopState.mk.injEq, true_and]
      and_intros
      all_goals first | omega | simp

/-! ## The whole of `divide` -/

theorem sig_words_natAbs (W : Nat) (x : Int) : sig_words W ((x.natAbs : Nat) : Int) = sig_words W x := by
  unfold sig_words
  rw [Int.natAbs_ofNat]

/-- The unsigned core of `divide`: for a nonzero divisor the run succeeds, the
magnitudes are divided exactly, and `sign_fixup` is applied to the result. -/
theorem divide_run_spec {W : Nat} (hW : 0 < W) (x y : Int) (hy : y ≠ 0) :
    divide_run W x y
      = .ok { q := (sign_fixup x y ((x.natAbs / y.natAbs : Nat) : Int)
                      ((x.natAbs % y.natAbs : Nat) : Int)).1,
              r := (sign_fixup x y ((x.natAbs / y.natAbs : Nat) : Int)
                      ((x.natAbs % y.natAbs : Nat) : Int)).2,
              iterations := divide_n W x y - divide_t W y,
              checks := 2 * (divide_n W x y - divide_t W y),
              q_size := divide_n W x y - divide_t W y + 1,
              branches := [false] ++ List.replicate (divide_n W x y - divide_t W y) true
                ++ [false] ++ sign_fixup_branches x ((x.natAbs % y.natAbs : Nat) : Int) } := by
  have hB0 := two_pow_pos_word W
  have hB1 := one_lt_two_pow_word hW
  have hY0 : ((y.natAbs : Nat) : Int) ≠ 0 := by simpa using hy
  obtain ⟨n1, n2, n3⟩ := top_bits_free_spec hW _ hY0
  rw [sig_words_natAbs, Int.natAbs_ofNat] at n2 n3
  have hyw := sig_words_pos hW y hy
  unfold divide_run
  rw [if_neg (by simp [is_zero, hy])]
  simp only [divide_n, divide_t, divide_shifts, set_sign_positive]
  generalize hs : top_bits_free W ((y.natAbs : Nat) : Int) = sh at *
  rw [shl_natCast, shl_natCast]
  generalize hYn : y.natAbs * 2 ^ sh = Yn at *
  generalize hRn : x.natAbs * 2 ^ sh = Rn at *
  obtain ⟨t, ht⟩ : ∃ t, sig_words W y = t + 1 := ⟨sig_words W y - 1, by omega⟩
  rw [ht] at n2 n3 ⊢
  rw [size_sub_of_le (show 1 ≤ t + 1 by omega), Nat.add_sub_cancel]
  have hle : 1 ≤ max (t + 1) (sig_words W (Rn : Int)) := by omega
  rw [size_sub_of_le hle]
  obtain ⟨k, hk⟩ : ∃ k, max (t + 1) (sig_words W (Rn : Int)) - 1 = t + k :=
    ⟨max (t + 1) (sig_words W (Rn : Int)) - 1 - t, by omega⟩
  rw [hk, size_sub_of_le (show t ≤ t + k by omega), Nat.add_sub_cancel_left]
  have hYpos : 0 < y.natAbs := Int.natAbs_pos.mpr hy
  have hYn0 : 0 < Yn := by rw [← hYn]; exact Nat.mul_pos hYpos (Nat.pow_pos (by decide))
  have hS : 0 < Yn * (2 ^ W) ^ k := Nat.mul_pos hYn0 (Nat.pow_pos hB0)
  have hY2 : 2 ^ (W - 1) * (2 ^ W) ^ t ≤ Yn := by
    have e : (2 ^ W) ^ (t + 1) = 2 * (2 ^ (W - 1) * (2 ^ W) ^ t) := by
      rw [pow_succ, ← Nat.mul_assoc, ← pow_succ', Nat.mul_comm]
      congr 2; omega
    omega
  -- the first quotient word
  have hRn1 : Rn < (2 ^ W) ^ (t + k + 1) := by
    have h1 := lt_pow_sig_words hW (Rn : Int)
    rw [Int.natAbs_ofNat] at h1
    have h2 : (2 ^ W) ^ sig_words W (Rn : Int) ≤ (2 ^ W) ^ (t + k + 1) :=
      Nat.pow_le_pow_right hB0 (by omega)
    omega
  have hred : Rn / (Yn * (2 ^ W) ^ k) < 2 ^ W := by
    have h1 : (2 ^ W) ^ (t + k + 1) ≤ 2 * (Yn * (2 ^ W) ^ k) := by
      have e : (2 ^ W) ^ (t + k + 1) = (2 ^ W) ^ (t + 1) * (2 ^ W) ^ k := by
        rw [← pow_add]; congr 1; omega
      rw [e, ← Nat.mul_assoc]
      exact Nat.mul_le_mul_right _ n3
    have h2 : Rn / (Yn * (2 ^ W) ^ k) < 2 :=
      Nat.div_lt_of_lt_mul (by rw [Nat.mul_comm]; omega)
    omega
  have ered : reduce_below (Rn : Int) (shl (Yn : Int) (W * k))
      = .ok (Rn / (Yn * (2 ^ W) ^ k), ((Rn % (Yn * (2 ^ W) ^ k) : Nat) : Int)) := by
    rw [shl_natCast, pow_mul]
    have a1 : ¬ ((Rn : Int) < 0) := by omega
    have a2 : ¬ (((Yn * (2 ^ W) ^ k : Nat) : Int) < 0) := by omega
    simp only [reduce_below, is_negative, a1, a2, decide_False, Bool.or_self, Int.natAbs_ofNat]
    rfl
  have eset : set_word (List.replicate (k + 1) 0) k (Rn / (Yn * (2 ^ W) ^ k))
      = .ok (List.replicate k 0 ++ [Rn / (Yn * (2 ^ W) ^ k)]) := by
    have := set_replicate_append k (Rn / (Yn * (2 ^ W) ^ k)) []
    rw [List.append_nil] at this
    simp [set_word, this]
  obtain ⟨lo, l1, l2, l3, l4⟩ := digit_loop_spec hW Yn t n2 hY2 k
    { r := ((Rn % (Yn * (2 ^ W) ^ k) : Nat) : Int),
      shifted_y := shl (Yn : Int) (W * k),
      q_words := List.replicate k 0 ++ [Rn / (Yn * (2 ^ W) ^ k)],
      iterations := 0, checks := 0, branches := [false] }
    (Rn % (Yn * (2 ^ W) ^ k)) [Rn / (Yn * (2 ^ W) ^ k)] rfl (Nat.mod_lt _ hS)
    (by rw [shl_natCast, pow_mul]) rfl
  obtain ⟨e1, e2⟩ := div_mod_split Rn Yn ((2 ^ W) ^ k) hYn0
  rw [ered]
  simp only [bind, Except.bind, Nat.mod_eq_of_lt hred]
  rw [eset]
  simp only [l4, e2]
  have eq : words_value W (lo ++ [Rn / (Yn * (2 ^ W) ^ k)]) = x.natAbs / y.natAbs := by
    rw [words_value_append, l2, l1]
    simp only [words_value, Nat.mul_zero, Nat.add_zero]
    rw [e1, ← hRn, ← hYn]
    exact Nat.mul_div_mul_right _ _ (Nat.pow_pos (by decide))
  have er : shr ((Rn % Yn : Nat) : Int) sh = ((x.natAbs % y.natAbs : Nat) : Int) := by
    rw [shr_natCast, ← hRn, ← hYn, Nat.mul_mod_mul_right,
      Nat.mul_div_cancel _ (Nat.pow_pos (by decide))]
  rw [eq, er]
  simp [pure, Except.pure, l1]

/-- The result of `divide` for a nonzero divisor: the exact quotient and
remainder of the magnitudes, passed through `sign_fixup`. -/
theorem divide_eq {W : Nat} (hW : 0 < W) (x y : Int) (hy : y ≠ 0) :
    divide W x y
      = .ok (sign_fixup x y ((x.natAbs / y.natAbs : Nat) : Int)
              ((x.natAbs % y.natAbs : Nat) : Int)) := by
  rw [divide, divide_run_spec hW x y hy]
  rfl

theorem divide_zero (W : Nat) (x : Int) : divide W x 0 = .error .DivideByZero := by
  simp [divide, divide_run, is_zero, Except.map]

theorem sign_fixup_of_nonneg (x y q r : Int) (hx : 0 ≤ x) :
    sign_fixup x y q r = (if y < 0 then -q else q, r) := by
  have h1 : ¬ x < 0 := by omega
  by_cases h2 : y < 0 <;> simp [sign_fixup, cond_flip_sign, sign, is_negative, h1, h2]

theorem sign_fixup_of_neg_zero (x y q : Int) (hx : x < 0) :
    sign_fixup x y q 0 = (if y < 0 then q else -q, 0) := by
  by_cases h2 : y < 0 <;>
    simp [sign_fixup, cond_flip_sign, sign, is_negative, is_nonzero, is_zero, hx, h2]

theorem sign_fixup_of_neg (x y q r : Int) (hx : x < 0) (hr : r ≠ 0) :
    sign_fixup x y q r = ((if y < 0 then q else -q) - 1, (y.natAbs : Int) - r) := by
  by_cases h2 : y < 0 <;>
    simp [sign_fixup, cond_flip_sign, sign, is_negative, is_nonzero, is_zero, abs, hx, h2, hr]

/-- An integer is its magnitude or the negation of it, by its sign. -/
theorem eq_natAbs_cases (x : Int) :
    (0 ≤ x ∧ x = (x.natAbs : Int)) ∨ (x < 0 ∧ x = -(x.natAbs : Int)) := by
  omega

/-- Truncated division in terms of the magnitudes. -/
theorem tdiv_natAbs (x y : Int) :
    Int.tdiv x y
      = if x < 0 then (if y < 0 then ((x.natAbs / y.natAbs : Nat) : Int)
                        else -((x.natAbs / y.natAbs : Nat) : Int))
        else (if y < 0 then -((x.natAbs / y.natAbs : Nat) : Int)
                else ((x.natAbs / y.natAbs : Nat) : Int)) := by
  rcases eq_natAbs_cases x with ⟨hx, ex⟩ | ⟨hx, ex⟩ <;>
  rcases eq_natAbs_cases y with ⟨hy, ey⟩ | ⟨hy, ey⟩
  · rw [if_neg (by omega), if_neg (by omega)]
    conv_lhs => rw [ex, ey]
    exact (Int.ofNat_tdiv _ _).symm
  · rw [if_neg (by omega), if_pos hy]
    conv_lhs => rw [ex, ey, Int.tdiv_neg]
    rw [Int.ofNat_tdiv]
  · rw [if_pos hx, if_neg (by omega)]
    conv_lhs => rw [ex, ey, Int.neg_tdiv]
    rw [Int.ofNat_tdiv]
  · rw [if_pos hx, if_pos hy]
    conv_lhs => rw [ex, ey, Int.neg_tdiv, Int.tdiv_neg, neg_neg]
    rw [Int.ofNat_tdiv]

/-- The quotient and remainder of the magnitudes. -/
theorem natAbs_div_mod (x y : Int) (hy : y ≠ 0) :
    x.natAbs = y.natAbs * (x.natAbs / y.natAbs) + x.natAbs % y.natAbs ∧
    x.natAbs % y.natAbs < y.natAbs :=
  ⟨(Nat.div_add_mod _ _).symm, Nat.mod_lt _ (Int.natAbs_pos.mpr hy)⟩

/-- The pair returned by `divide` for a nonzero divisor, by the sign of `x` and
by whether the magnitudes divide exactly. -/
theorem divide_result_cases {W : Nat} (hW : 0 < W) (x y : Int) (hy : y ≠ 0) :
    ∃ q r : Int, divide W x y = .ok (q, r) ∧
      (0 ≤ x → q = (if y < 0 then -((x.natAbs / y.natAbs : Nat) : Int)
                      else ((x.natAbs / y.natAbs : Nat) : Int))
                ∧ r = ((x.natAbs % y.natAbs : Nat) : Int)) ∧
      (x < 0 → x.natAbs % y.natAbs = 0 →
          q = (if y < 0 then ((x.natAbs / y.natAbs : Nat) : Int)
                else -((x.natAbs / y.natAbs : Nat) : Int)) ∧ r = 0) ∧
      (x < 0 → x.natAbs % y.natAbs ≠ 0 →
          q = (if y < 0 then ((x.natAbs / y.natAbs : Nat) : Int)
                else -((x.natAbs / y.natAbs : Nat) : Int)) - 1
          ∧ r = (y.natAbs : Int) - ((x.natAbs % y.natAbs : Nat) : Int)) := by
  rw [divide_eq hW x y hy]
  rcases hsf : sign_fixup x y ((x.natAbs / y.natAbs : Nat) : Int)
    ((x.natAbs % y.natAbs : Nat) : Int) with ⟨q, r⟩
  refine ⟨q, r, rfl, ?_, ?_, ?_⟩
  · intro hx
    rw [sign_fixup_of_nonneg _ _ _ _ hx] at hsf
    obtain ⟨h1, h2⟩ := Prod.mk.inj hsf
    exact ⟨h1.symm, h2.symm⟩
  · intro hx hR
    rw [hR, Nat.cast_zero, sign_fixup_of_neg_zero _ _ _ hx] at hsf
    obtain ⟨h1, h2⟩ := Prod.mk.inj hsf
    exact ⟨h1.symm, h2.symm⟩
  · intro hx hR
    rw [sign_fixup_of_neg _ _ _ _ hx (by exact_mod_cast hR)] at hsf
    obtain ⟨h1, h2⟩ := Prod.mk.inj hsf
    exact ⟨h1.symm, h2.symm⟩

/-! ## The schoolbook reference -/

theorem schoolbook_loop_spec (y : Nat) (hy : 0 < y) :
    ∀ (fuel q r : Nat), r ≤ fuel → schoolbook_loop fuel q r y = (q + r / y, r % y) := by
  intro fuel
  induction fuel with
  | zero =>
    intro q r hr
    have : r = 0 := by omega
    subst this
    simp [schoolbook_loop]
  | succ fuel ih =>
    intro q r hr
    by_cases h : r < y
    · simp [schoolbook_loop, h, Nat.div_eq_of_lt h, Nat.mod_eq_of_lt h]
    · rw [schoolbook_loop, if_neg h, ih (q + 1) (r - y) (by omega)]
      have h1 : r / y = (r - y) / y + 1 := Nat.div_eq_sub_div hy (by omega)
      have h2 : r % y = (r - y) % y := Nat.mod_eq_sub_mod (by omega)
      rw [h1, h2]
      congr 1
      omega

theorem schoolbook_divide_eq (x y : Nat) (hy : 0 < y) :
    schoolbook_divide x y = (x / y, x % y) := by
  rw [schoolbook_divide, schoolbook_loop_spec y hy x 0 x (le_refl _), Nat.zero_add]

/-! ## Bit lengths -/

/-- The magnitude lies between `2 ^ (bits - 1)` and `2 ^ bits`. -/
theorem bits_spec (x : Int) :
    x.natAbs < 2 ^ bits x ∧ (x ≠ 0 → 0 < bits x ∧ 2 ^ (bits x - 1) ≤ x.natAbs) := by
  obtain ⟨-, h2, h3⟩ := high_bit_aux_spec x.natAbs x.natAbs (Nat.lt_two_pow _)
  exact ⟨h2, fun hx => h3 (Int.natAbs_ne_zero.mpr hx)⟩

theorem bits_eq_zero_iff (x : Int) : bits x = 0 ↔ x = 0 := by
  constructor
  · intro h
    have := (bits_spec x).1
    rw [h] at this
    omega
  · intro h
    subst h
    rfl

theorem pow_lt_pow_two {a b : Nat} (h : 2 ^ a < 2 ^ b) : a < b :=
  (Nat.pow_lt_pow_iff_right (by decide : 1 < 2)).mp h

/-- The bit length is determined by the bracket of the magnitude. -/
theorem bits_unique (x : Int) (c : Nat) (h1 : x.natAbs < 2 ^ c) (h2 : 2 ^ c ≤ 2 * x.natAbs) :
    bits x = c := by
  have hx : x ≠ 0 := by
    intro h
    subst h
    have : 0 < 2 ^ c := Nat.pow_pos (by decide)
    simp at h2
  obtain ⟨g1, g2⟩ := bits_spec x
  obtain ⟨g3, g4⟩ := g2 hx
  have a1 : 2 ^ (bits x - 1) < 2 ^ c := lt_of_le_of_lt g4 h1
  have a2 : 2 ^ c < 2 ^ (bits x + 1) := by
    rw [pow_succ]; omega
  have := pow_lt_pow_two a1
  have := pow_lt_pow_two a2
  omega

/-- The word count in terms of the bit length. -/
theorem sig_words_bits {W : Nat} (hW : 0 < W) (x : Int) (hx : x ≠ 0) :
    W * (sig_words W x - 1) < bits x ∧ bits x ≤ W * sig_words W x := by
  obtain ⟨g1, g2⟩ := bits_spec x
  obtain ⟨g3, g4⟩ := g2 hx
  have h1 := lt_pow_sig_words hW x
  have h2 := pow_sig_words_le hW x hx
  rw [← pow_mul] at h1 h2
  have a1 := pow_lt_pow_two (lt_of_le_of_lt h2 g1)
  have a2 := pow_lt_pow_two (lt_of_le_of_lt g4 h1)
  omega

/-- The word count depends on the bit length only. -/
theorem sig_words_congr {W : Nat} (hW : 0 < W) (x x' : Int) (h : bits x = bits x') :
    sig_words W x = sig_words W x' := by
  by_cases hx : x = 0
  · have hx' : x' = 0 := (bits_eq_zero_iff x').mp (by rw [← h]; exact (bits_eq_zero_iff x).mpr hx)
    rw [hx, hx']
  · have hx' : x' ≠ 0 := fun h0 => hx ((bits_eq_zero_iff x).mp (by
      rw [h]; exact (bits_eq_zero_iff x').mpr h0))
    obtain ⟨a1, a2⟩ := sig_words_bits hW x hx
    obtain ⟨b1, b2⟩ := sig_words_bits hW x' hx'
    have p1 := sig_words_pos hW x hx
    have p2 := sig_words_pos hW x' hx'
    rw [h] at a1 a2
    rcases Nat.lt_trichotomy (sig_words W x) (sig_words W x') with hlt | heq | hgt
    · exfalso
      have : W * sig_words W x ≤ W * (sig_words W x' - 1) := Nat.mul_le_mul_left _ (by omega)
      omega
    · exact heq
    · exfalso
      have : W * sig_words W x' ≤ W * (sig_words W x - 1) := Nat.mul_le_mul_left _ (by omega)
      omega

/-- The normalisation shift brings the bit length to a whole number of words. -/
theorem top_bits_free_bits {W : Nat} (hW : 0 < W) (y : Int) (hy : y ≠ 0) :
    bits y + top_bits_free W y = W * sig_words W y := by
  obtain ⟨n1, n2, n3⟩ := top_bits_free_spec hW y hy
  obtain ⟨g1, g2⟩ := bits_spec y
  obtain ⟨g3, g4⟩ := g2 hy
  rw [← pow_mul] at n2 n3
  have hs : 0 < 2 ^ top_bits_free W y := Nat.pow_pos (by decide)
  have a1 : 2 ^ (bits y - 1 + top_bits_free W y) < 2 ^ (W * sig_words W y) := by
    rw [pow_add]
    exact lt_of_le_of_lt (Nat.mul_le_mul_right _ g4) n2
  have a2 : 2 ^ (W * sig_words W y) < 2 ^ (bits y + top_bits_free W y + 1) := by
    rw [pow_succ, pow_add]
    have : y.natAbs * 2 ^ top_bits_free W y < 2 ^ bits y * 2 ^ top_bits_free W y :=
      Nat.mul_lt_mul_of_pos_right g1 hs
    omega
  have := pow_lt_pow_two a1
  have := pow_lt_pow_two a2
  omega

/-- The bit length of a shifted magnitude. -/
theorem bits_shl (x : Int) (s : Nat) (hx : x ≠ 0) :
    bits ((x.natAbs * 2 ^ s : Nat) : Int) = bits x + s := by
  obtain ⟨g1, g2⟩ := bits_spec x
  obtain ⟨g3, g4⟩ := g2 hx
  have hs : 0 < 2 ^ s := Nat.pow_pos (by decide)
  apply bits_unique
  · rw [Int.natAbs_ofNat, pow_add]
    exact Nat.mul_lt_mul_of_pos_right g1 hs
  · rw [Int.natAbs_ofNat, pow_add]
    have e : 2 ^ bits x = 2 * 2 ^ (bits x - 1) := by
      rw [← pow_succ']; congr 1; omega
    rw [e, Nat.mul_assoc]
    exact Nat.mul_le_mul_left _ (Nat.mul_le_mul_right _ g4)

/-- The indices `n` and `t` of `divide` depend on the bit lengths only. -/
theorem divide_n_t_congr {W : Nat} (hW : 0 < W) (x y x' y' : Int) (hy : y ≠ 0) (hy' : y' ≠ 0)
    (hbx : bits x = bits x') (hby : bits y = bits y') :
    divide_n W x y = divide_n W x' y' ∧ divide_t W y = divide_t W y' := by
  have hw := sig_words_congr hW y y' hby
  have hY : ((y.natAbs : Nat) : Int) ≠ 0 := by simpa using hy
  have hY' : ((y'.natAbs : Nat) : Int) ≠ 0 := by simpa using hy'
  have hs : divide_shifts W y = divide_shifts W y' := by
    have e1 := top_bits_free_bits hW _ hY
    have e2 := top_bits_free_bits hW _ hY'
    rw [sig_words_natAbs] at e1 e2
    have b1 : bits ((y.natAbs : Nat) : Int) = bits y := by
      unfold bits; rw [Int.natAbs_ofNat]
    have b2 : bits ((y'.natAbs : Nat) : Int) = bits y' := by
      unfold bits; rw [Int.natAbs_ofNat]
    rw [b1] at e1
    rw [b2] at e2
    simp only [divide_shifts, set_sign_positive]
    rw [hw, hby] at e1
    omega
  refine ⟨?_, by rw [divide_t, divide_t, hw]⟩
  simp only [divide_n, set_sign_positive]
  rw [hs, hw, shl_natCast, shl_natCast]
  congr 2
  apply sig_words_congr hW
  by_cases hx : x = 0
  · have hx' : x' = 0 := (bits_eq_zero_iff x').mp (by rw [← hbx]; exact (bits_eq_zero_iff x).mpr hx)
    rw [hx, hx']
  · have hx' : x' ≠ 0 := fun h0 => hx ((bits_eq_zero_iff x).mp (by
      rw [hbx]; exact (bits_eq_zero_iff x').mpr h0))
    rw [bits_shl x _ hx, bits_shl x' _ hx', hbx]

/-! ## The claims -/

/-- Claim C1 (the code departs from it): the identity `x = q * y + r` fails when
both operands are negative and the remainder is nonzero. With 64-bit words,
`divide(-7, -2)` returns `(2, 1)`, and `2 * (-2) + 1 = -3`, not `-7`. -/
theorem divide_identity_fails_both_negative :
    divide 64 (-7) (-2) = .ok (2, 1) ∧ (2 : Int) * (-2) + 1 ≠ -7 := by
  constructor
  · rfl
  · decide

/-- Claim C2, as stated, fails: with 64-bit words `divide(-7, 2)` returns the
quotient `-4`, and the quotient rounded toward zero is `-3`. -/
theorem divide_quotient_not_truncated :
    divide 64 (-7) 2 = .ok (-4, 1) ∧ Int.tdiv (-7) 2 = -3 ∧ (-4 : Int) ≠ Int.tdiv (-7) 2 := by
  refine ⟨rfl, by decide, by decide⟩

/-- Claim C2, amended: for a nonzero divisor `divide` returns a pair whose
quotient is `trunc(x / y)` whenever `x` is nonnegative or `y` divides `x`, and
is `floor(x / y)` when `x` is negative and `y` positive; in particular
`divide(7,2) = (3,1)`, `divide(-7,2) = (-4,1)` and `divide(7,-2) = (-3,1)`. -/
theorem divide_quotient (W : Nat) (x y : Int) (hW : 0 < W) (hy : y ≠ 0) :
    (∃ q r : Int, divide W x y = .ok (q, r) ∧
      ((0 ≤ x ∨ y ∣ x) → q = Int.tdiv x y) ∧ (x < 0 ∧ 0 < y → q = Int.fdiv x y)) ∧
    divide W 7 2 = .ok (3, 1) ∧ divide W (-7) 2 = .ok (-4, 1) ∧
    divide W 7 (-2) = .ok (-3, 1) := by
  refine ⟨?_, ?_, ?_, ?_⟩
  · obtain ⟨e1, e2⟩ := natAbs_div_mod x y hy
    obtain ⟨q, r, hd, c1, c2, c3⟩ := divide_result_cases hW x y hy
    refine ⟨q, r, hd, ?_, ?_⟩
    · intro h
      rw [tdiv_natAbs]
      by_cases hx : x < 0
      · have hdvd : y ∣ x := by
          rcases h with h | h
          · omega
          · exact h
        have hR : x.natAbs % y.natAbs = 0 :=
          Nat.mod_eq_zero_of_dvd (Int.natAbs_dvd_natAbs.mpr hdvd)
        rw [(c2 hx hR).1, if_pos hx]
      · rw [(c1 (by omega)).1, if_neg hx]
    · rintro ⟨hx, hy0⟩
      rw [Int.fdiv_eq_ediv _ (by omega)]
      symm
      have ex : x = -(x.natAbs : Int) := by omega
      have ey : y = (y.natAbs : Int) := by omega
      have e1' : (x.natAbs : Int)
          = (y.natAbs : Int) * ((x.natAbs / y.natAbs : Nat) : Int)
            + ((x.natAbs % y.natAbs : Nat) : Int) := by exact_mod_cast e1
      have e2' : ((x.natAbs % y.natAbs : Nat) : Int) < (y.natAbs : Int) := by exact_mod_cast e2
      by_cases hR : x.natAbs % y.natAbs = 0
      · rw [(c2 hx hR).1, if_neg (by omega)]
        rw [hR] at e1'
        refine ((Int.ediv_emod_unique (r := 0) hy0).mpr ⟨?_, le_refl _, hy0⟩).1
        conv_rhs => rw [ex, e1']
        conv_lhs => rw [ey]
        simp only [Int.natAbs_ofNat]
        ring
      · rw [(c3 hx hR).1, if_neg (by omega)]
        have hpos : (0 : Int) < ((x.natAbs % y.natAbs : Nat) : Int) := by omega
        refine ((Int.ediv_emod_unique (r := (y.natAbs : Int)
          - ((x.natAbs % y.natAbs : Nat) : Int)) hy0).mpr ⟨?_, by omega, by omega⟩).1
        conv_rhs => rw [ex, e1']
        conv_lhs => rw [ey]
        simp only [Int.natAbs_ofNat]
        ring
  · rw [divide_eq hW _ _ (by decide)]; rfl
  · rw [divide_eq hW _ _ (by decide)]; rfl
  · rw [divide_eq hW _ _ (by decide)]; rfl

/-- Witness of `divide_quotient`, at `x = -7`, `y = 2` and 64-bit words. -/
theorem divide_quotient_witness :
    (0 < 64 ∧ (2 : Int) ≠ 0) ∧
    ((∃ q r : Int, divide 64 (-7) 2 = .ok (q, r) ∧
        ((0 ≤ (-7 : Int) ∨ (2 : Int) ∣ -7) → q = Int.tdiv (-7) 2) ∧
        ((-7 : Int) < 0 ∧ (0 : Int) < 2 → q = Int.fdiv (-7) 2)) ∧
      divide 64 7 2 = .ok (3, 1) ∧ divide 64 (-7) 2 = .ok (-4, 1) ∧
      divide 64 7 (-2) = .ok (-3, 1)) :=
  ⟨⟨by decide, by decide⟩, divide_quotient 64 (-7) 2 (by decide) (by decide)⟩

/-- Claim C3: for a nonzero divisor, `divide` returns a pair whose remainder
satisfies `|r| < |y|`. -/
theorem divide_remainder_bound (W : Nat) (x y : Int) (hW : 0 < W) (hy : y ≠ 0) :
    ∃ q r : Int, divide W x y = .ok (q, r) ∧ |r| < |y| := by
  obtain ⟨_, e2⟩ := natAbs_div_mod x y hy
  obtain ⟨q, r, hd, c1, c2, c3⟩ := divide_result_cases hW x y hy
  refine ⟨q, r, hd, ?_⟩
  rw [Int.abs_eq_natAbs, Int.abs_eq_natAbs]
  have hY := Int.natAbs_pos.mpr hy
  generalize x.natAbs % y.natAbs = R at *
  generalize y.natAbs = Y at *
  by_cases hx : x < 0
  · by_cases hR : R = 0
    · rw [(c2 hx hR).2]
      simp only [Int.natAbs_zero, Nat.cast_zero]
      omega
    · rw [(c3 hx hR).2]
      omega
  · rw [(c1 (by omega)).2]
    omega

/-- Witness of `divide_remainder_bound`, at `x = -7`, `y = -2` and 64-bit words. -/
theorem divide_remainder_bound_witness :
    (0 < 64 ∧ (-2 : Int) ≠ 0) ∧
    ∃ q r : Int, divide 64 (-7) (-2) = .ok (q, r) ∧ |r| < |(-2 : Int)| :=
  ⟨⟨by decide, by decide⟩, divide_remainder_bound 64 (-7) (-2) (by decide) (by decide)⟩

/-- Claim C4, as stated, fails: with 64-bit words `divide(-5, 3)` returns the
remainder `1`, which is neither zero nor of the sign of the dividend `-5`. -/
theorem divide_remainder_sign_differs :
    divide 64 (-5) 3 = .ok (-2, 1) ∧ (1 : Int) ≠ 0 ∧ Int.sign 1 ≠ Int.sign (-5) := by
  refine ⟨rfl, by decide, by decide⟩

/-- Claim C4, amended: for a nonzero divisor, the remainder returned by `divide`
is zero or positive; so it is zero or of the sign of `x` when `x` is not
negative, and a negative `x` with a nonzero remainder gives a positive `r`. -/
theorem divide_remainder_sign (W : Nat) (x y : Int) (hW : 0 < W) (hy : y ≠ 0) :
    ∃ q r : Int, divide W x y = .ok (q, r) ∧ (r = 0 ∨ Int.sign r = 1) ∧
      (0 ≤ x → r = 0 ∨ Int.sign r = Int.sign x) ∧ (x < 0 → r ≠ 0 → 0 < r) := by
  obtain ⟨_, e2⟩ := natAbs_div_mod x y hy
  obtain ⟨q, r, hd, c1, c2, c3⟩ := divide_result_cases hW x y hy
  have hr : 0 ≤ r := by
    generalize x.natAbs % y.natAbs = R at *
    generalize y.natAbs = Y at *
    by_cases hx : x < 0
    · by_cases hR : R = 0
      · rw [(c2 hx hR).2]
      · rw [(c3 hx hR).2]; omega
    · rw [(c1 (by omega)).2]; omega
  have hsign : r = 0 ∨ Int.sign r = 1 := by
    rcases eq_or_lt_of_le hr with h | h
    · exact Or.inl h.symm
    · exact Or.inr (Int.sign_eq_one_of_pos h)
  refine ⟨q, r, hd, hsign, ?_, fun _ h => lt_of_le_of_ne hr (Ne.symm h)⟩
  intro hx
  rcases hsign with h | h
  · exact Or.inl h
  · right
    rw [h]
    have hx0 : 0 < x := by
      rcases eq_or_lt_of_le hx with h0 | h0
      · exfalso
        have hr0 := (c1 hx).2
        rw [← h0] at hr0
        simp at hr0
        rw [hr0] at h
        simp at h
      · exact h0
    exact (Int.sign_eq_one_of_pos hx0).symm

/-- Witness of `divide_remainder_sign`, at `x = -5`, `y = 3` and 64-bit words. -/
theorem divide_remainder_sign_witness :
    (0 < 64 ∧ (3 : Int) ≠ 0) ∧
    ∃ q r : Int, divide 64 (-5) 3 = .ok (q, r) ∧ (r = 0 ∨ Int.sign r = 1) ∧
      (0 ≤ (-5 : Int) → r = 0 ∨ Int.sign r = Int.sign (-5)) ∧
      ((-5 : Int) < 0 → r ≠ 0 → 0 < r) :=
  ⟨⟨by decide, by decide⟩, divide_remainder_sign 64 (-5) 3 (by decide) (by decide)⟩

/-- Claim C5: `divide` fails with `DivideByZero` exactly when the divisor is
zero, whatever the dividend, and returns a pair exactly when it is not. -/
theorem divide_fails_iff_zero (W : Nat) (x y : Int) (hW : 0 < W) :
    (divide W x y = .error .DivideByZero ↔ y = 0) ∧
    ((∃ q r : Int, divide W x y = .ok (q, r)) ↔ y ≠ 0) := by
  by_cases hy : y = 0
  · subst hy
    rw [divide_zero]
    simp
  · obtain ⟨q, r, hd, -⟩ := divide_result_cases hW x y hy
    rw [hd]
    simp [hy]

/-- Witness of `divide_fails_iff_zero`, at `x = 0`, `y = 0` and 64-bit words. -/
theorem divide_fails_iff_zero_witness :
    0 < 64 ∧
    ((divide 64 0 0 = .error .DivideByZero ↔ (0 : Int) = 0) ∧
      ((∃ q r : Int, divide 64 0 0 = .ok (q, r)) ↔ (0 : Int) ≠ 0)) :=
  ⟨by decide, divide_fails_iff_zero 64 0 0 (by decide)⟩

/-- Claim C6: for `x ≥ 0` and `y > 0` of any lengths, `divide` returns the pair
of the schoolbook reference that repeatedly subtracts `y` from `x`, which is
`(x / y, x % y)`; hence `x = q * y + r` with `0 ≤ r < y`. -/
theorem divide_eq_schoolbook (W : Nat) (x y : Nat) (hW : 0 < W) (hy : 0 < y) :
    divide W (x : Int) (y : Int)
      = .ok (((schoolbook_divide x y).1 : Int), ((schoolbook_divide x y).2 : Int)) ∧
    schoolbook_divide x y = (x / y, x % y) ∧
    x = (schoolbook_divide x y).1 * y + (schoolbook_divide x y).2 ∧
    (schoolbook_divide x y).2 < y := by
  have hy0 : (y : Int) ≠ 0 := by omega
  obtain ⟨q, r, hd, c1, -, -⟩ := divide_result_cases hW (x : Int) (y : Int) hy0
  obtain ⟨h1, h2⟩ := c1 (by omega)
  rw [if_neg (by omega)] at h1
  simp only [Int.natAbs_ofNat] at h1 h2
  rw [schoolbook_divide_eq x y hy, hd, h1, h2]
  refine ⟨rfl, rfl, ?_, Nat.mod_lt _ hy⟩
  exact (Nat.div_add_mod' x y).symm

/-- Witness of `divide_eq_schoolbook`, at `x = 1000003`, `y = 97` and 8-bit
words (a three-word dividend and a one-word divisor). -/
theorem divide_eq_schoolbook_witness :
    (0 < 8 ∧ 0 < 97) ∧
    (divide 8 ((1000003 : Nat) : Int) ((97 : Nat) : Int)
        = .ok (((schoolbook_divide 1000003 97).1 : Int),
               ((schoolbook_divide 1000003 97).2 : Int)) ∧
      schoolbook_divide 1000003 97 = (1000003 / 97, 1000003 % 97) ∧
      1000003 = (schoolbook_divide 1000003 97).1 * 97 + (schoolbook_divide 1000003 97).2 ∧
      (schoolbook_divide 1000003 97).2 < 97) :=
  ⟨⟨by decide, by decide⟩, divide_eq_schoolbook 8 1000003 97 (by decide) (by decide)⟩

/-- Claim C7: for a nonzero divisor, the remainder returned by `divide` is zero
exactly when `y` divides `x`. -/
theorem divide_remainder_zero_iff (W : Nat) (x y : Int) (hW : 0 < W) (hy : y ≠ 0) :
    ∃ q r : Int, divide W x y = .ok (q, r) ∧ (r = 0 ↔ y ∣ x) := by
  obtain ⟨_, e2⟩ := natAbs_div_mod x y hy
  obtain ⟨q, r, hd, c1, c2, c3⟩ := divide_result_cases hW x y hy
  refine ⟨q, r, hd, ?_⟩
  rw [← Int.natAbs_dvd_natAbs, Nat.dvd_iff_mod_eq_zero]
  generalize x.natAbs % y.natAbs = R at *
  generalize y.natAbs = Y at *
  by_cases hx : x < 0
  · by_cases hR : R = 0
    · rw [(c2 hx hR).2]; simp [hR]
    · rw [(c3 hx hR).2]
      constructor
      · intro h; omega
      · intro h; exact absurd h hR
  · rw [(c1 (by omega)).2]
    exact Int.natCast_eq_zero

/-- Witness of `divide_remainder_zero_iff`, at `x = -12`, `y = 4` and 64-bit
words. -/
theorem divide_remainder_zero_iff_witness :
    (0 < 64 ∧ (4 : Int) ≠ 0) ∧
    ∃ q r : Int, divide 64 (-12) 4 = .ok (q, r) ∧ (r = 0 ↔ (4 : Int) ∣ -12) :=
  ⟨⟨by decide, by decide⟩, divide_remainder_zero_iff 64 (-12) 4 (by decide) (by decide)⟩

/-- Claim C8: for every nonzero divisor, `divide(0, y)` returns `(0, 0)`. -/
theorem divide_zero_dividend (W : Nat) (y : Int) (hW : 0 < W) (hy : y ≠ 0) :
    divide W 0 y = .ok (0, 0) := by
  obtain ⟨q, r, hd, c1, -, -⟩ := divide_result_cases hW 0 y hy
  obtain ⟨h1, h2⟩ := c1 (le_refl _)
  rw [hd, h1, h2]
  simp

/-- Witness of `divide_zero_dividend`, at `y = -5` and 64-bit words. -/
theorem divide_zero_dividend_witness :
    (0 < 64 ∧ (-5 : Int) ≠ 0) ∧ divide 64 0 (-5) = .ok (0, 0) :=
  ⟨⟨by decide, by decide⟩, divide_zero_dividend 64 (-5) (by decide) (by decide)⟩

/-- Claim C9: for operands that each fit in one word, `0 ≤ x < 2 ^ W` and
`0 < y < 2 ^ W`, `divide` returns the results of machine-word division,
`q = x / y` and `r = x % y`, both words. -/
theorem divide_single_word (W : Nat) (x y : Nat) (hW : 0 < W) (hx : x < 2 ^ W)
    (hy0 : 0 < y) (hy : y < 2 ^ W) :
    divide W (x : Int) (y : Int)
      = .ok (((machine_word_divide W x y).1 : Int), ((machine_word_divide W x y).2 : Int)) ∧
    machine_word_divide W x y = (x / y, x % y) ∧ x / y < 2 ^ W ∧ x % y < 2 ^ W := by
  have hyne : (y : Int) ≠ 0 := by omega
  have hq : x / y < 2 ^ W := lt_of_le_of_lt (Nat.div_le_self _ _) hx
  have hr : x % y < 2 ^ W := lt_of_le_of_lt (Nat.mod_le _ _) hx
  have hm : machine_word_divide W x y = (x / y, x % y) := by
    simp only [machine_word_divide, Nat.mod_eq_of_lt hx, Nat.mod_eq_of_lt hy,
      Nat.mod_eq_of_lt hq, Nat.mod_eq_of_lt hr]
  obtain ⟨q, r, hd, c1, -, -⟩ := divide_result_cases hW (x : Int) (y : Int) hyne
  obtain ⟨h1, h2⟩ := c1 (by omega)
  rw [if_neg (by omega)] at h1
  simp only [Int.natAbs_ofNat] at h1 h2
  rw [hm, hd, h1, h2]
  exact ⟨rfl, rfl, hq, hr⟩

/-- Witness of `divide_single_word`, at `x = 100`, `y = 7` and 64-bit words. -/
theorem divide_single_word_witness :
    (0 < 64 ∧ 100 < 2 ^ 64 ∧ 0 < 7 ∧ 7 < 2 ^ 64) ∧
    (divide 64 ((100 : Nat) : Int) ((7 : Nat) : Int)
        = .ok (((machine_word_divide 64 100 7).1 : Int),
               ((machine_word_divide 64 100 7).2 : Int)) ∧
      machine_word_divide 64 100 7 = (100 / 7, 100 % 7) ∧
      100 / 7 < 2 ^ 64 ∧ 100 % 7 < 2 ^ 64) :=
  ⟨⟨by decide, by decide, by decide, by decide⟩,
    divide_single_word 64 100 7 (by decide) (by decide) (by decide) (by decide)⟩

/-! ## The iterations of the digit loop in a run of `divide` -/



/-- The set-up of `divide` for a nonzero divisor: the normalised divisor `Yn` has
`t + 1` words and its top bit set, the normalised dividend `Rn` has at most
`n + 1` words, `t ≤ n`, and the digit loop is entered with the remainder
`Rn % (Yn * B ^ (n - t))`, the divisor shifted to that alignment and the top
quotient word set. -/
theorem divide_entry_spec {W : Nat} (hW : 0 < W) (x y : Int) (hy : y ≠ 0) :
    divide_y W y = ((y.natAbs * 2 ^ divide_shifts W y : Nat) : Int) ∧
    divide_shifts W y < W ∧
    sig_words W y = divide_t W y + 1 ∧
    divide_t W y ≤ divide_n W x y ∧
    y.natAbs * 2 ^ divide_shifts W y < (2 ^ W) ^ (divide_t W y + 1) ∧
    2 ^ (W - 1) * (2 ^ W) ^ divide_t W y ≤ y.natAbs * 2 ^ divide_shifts W y ∧
    x.natAbs * 2 ^ divide_shifts W y < (2 ^ W) ^ (divide_n W x y + 1) ∧
    divide_entry W x y
      = .ok { r := ((x.natAbs * 2 ^ divide_shifts W y
                      % (y.natAbs * 2 ^ divide_shifts W y
                          * (2 ^ W) ^ (divide_n W x y - divide_t W y)) : Nat) : Int),
              shifted_y := ((y.natAbs * 2 ^ divide_shifts W y
                              * (2 ^ W) ^ (divide_n W x y - divide_t W y) : Nat) : Int),
              q_words := List.replicate (divide_n W x y - divide_t W y) 0
                ++ [x.natAbs * 2 ^ divide_shifts W y
                      / (y.natAbs * 2 ^ divide_shifts W y
                          * (2 ^ W) ^ (divide_n W x y - divide_t W y))],
              iterations := 0, checks := 0, branches := [false] } := by
  have hB0 := two_pow_pos_word W
  have hB1 := one_lt_two_pow_word hW
  have hY0 : ((y.natAbs : Nat) : Int) ≠ 0 := by simpa using hy
  obtain ⟨n1, n2, n3⟩ := top_bits_free_spec hW _ hY0
  rw [sig_words_natAbs, Int.natAbs_ofNat] at n2 n3
  have hyw := sig_words_pos hW y hy
  unfold divide_entry divide_y
  simp only [divide_n, divide_t, divide_shifts, set_sign_positive]
  generalize hs : top_bits_free W ((y.natAbs : Nat) : Int) = sh at *
  rw [shl_natCast, shl_natCast]
  generalize hYn : y.natAbs * 2 ^ sh = Yn at *
  generalize hRn : x.natAbs * 2 ^ sh = Rn at *
  obtain ⟨t, ht⟩ : ∃ t, sig_words W y = t + 1 := ⟨sig_words W y - 1, by omega⟩
  rw [ht] at n2 n3 ⊢
  rw [size_sub_of_le (show 1 ≤ t + 1 by omega), Nat.add_sub_cancel]
  have hle : 1 ≤ max (t + 1) (sig_words W (Rn : Int)) := by omega
  rw [size_sub_of_le hle]
  obtain ⟨k, hk⟩ : ∃ k, max (t + 1) (sig_words W (Rn : Int)) - 1 = t + k :=
    ⟨max (t + 1) (sig_words W (Rn : Int)) - 1 - t, by omega⟩
  rw [hk, size_sub_of_le (show t ≤ t + k by omega), Nat.add_sub_cancel_left]
  have hYpos : 0 < y.natAbs := Int.natAbs_pos.mpr hy
  have hYn0 : 0 < Yn := by rw [← hYn]; exact Nat.mul_pos hYpos (Nat.pow_pos (by decide))
  have hY2 : 2 ^ (W - 1) * (2 ^ W) ^ t ≤ Yn := by
    have e : (2 ^ W) ^ (t + 1) = 2 * (2 ^ (W - 1) * (2 ^ W) ^ t) := by
      rw [pow_succ, ← Nat.mul_assoc, ← pow_succ', Nat.mul_comm]
      congr 2; omega
    omega
  have hRn1 : Rn < (2 ^ W) ^ (t + k + 1) := by
    have h1 := lt_pow_sig_words hW (Rn : Int)
    rw [Int.natAbs_ofNat] at h1
    have h2 : (2 ^ W) ^ sig_words W (Rn : Int) ≤ (2 ^ W) ^ (t + k + 1) :=
      Nat.pow_le_pow_right hB0 (by omega)
    omega
  have hred : Rn / (Yn * (2 ^ W) ^ k) < 2 ^ W := by
    have h1 : (2 ^ W) ^ (t + k + 1) ≤ 2 * (Yn * (2 ^ W) ^ k) := by
      have e : (2 ^ W) ^ (t + k + 1) = (2 ^ W) ^ (t + 1) * (2 ^ W) ^ k := by
        rw [← pow_add]; congr 1; omega
      rw [e, ← Nat.mul_assoc]
      exact Nat.mul_le_mul_right _ n3
    have h2 : Rn / (Yn * (2 ^ W) ^ k) < 2 :=
      Nat.div_lt_of_lt_mul (by rw [Nat.mul_comm]; omega)
    omega
  have ered : reduce_below (Rn : Int) (shl (Yn : Int) (W * k))
      = .ok (Rn / (Yn * (2 ^ W) ^ k), ((Rn % (Yn * (2 ^ W) ^ k) : Nat) : Int)) := by
    rw [shl_natCast, pow_mul]
    have a1 : ¬ ((Rn : Int) < 0) := by omega
    have a2 : ¬ (((Yn * (2 ^ W) ^ k : Nat) : Int) < 0) := by omega
    simp only [reduce_below, is_negative, a1, a2, decide_False, Bool.or_self, Int.natAbs_ofNat]
    rfl
  have eset : set_word (List.replicate (k + 1) 0) k (Rn / (Yn * (2 ^ W) ^ k))
      = .ok (List.replicate k 0 ++ [Rn / (Yn * (2 ^ W) ^ k)]) := by
    have := set_replicate_append k (Rn / (Yn * (2 ^ W) ^ k)) []
    rw [List.append_nil] at this
    simp [set_word, this]
  refine ⟨rfl, n1, rfl, by omega, n2, hY2, hRn1, ?_⟩
  rw [ered]
  simp only [bind, Except.bind, Nat.mod_eq_of_lt hred]
  rw [eset, shl_natCast, pow_mul]
  rfl



/-- For a nonzero divisor, `divide` is its set-up, then the digit loop, then the
shift back and `sign_fixup`. -/
theorem divide_run_eq_loop {W : Nat} (hW : 0 < W) (x y : Int) (hy : y ≠ 0) :
    divide_run W x y
      = (divide_entry W x y).bind (fun s0 =>
          (digit_loop W (word_at W (divide_y W y) (divide_t W y))
              (word_at W (divide_y W y) (size_sub (divide_t W y) 1))
              (divide_t W y) (divide_n W x y) s0).bind (fun s =>
            .ok { q := (sign_fixup x y ((words_value W s.q_words : Nat) : Int)
                          (shr s.r (divide_shifts W y))).1,
                  r := (sign_fixup x y ((words_value W s.q_words : Nat) : Int)
                          (shr s.r (divide_shifts W y))).2,
                  iterations := s.iterations, checks := s.checks,
                  q_size := s.q_words.length,
                  branches := s.branches
                    ++ sign_fixup_branches x (shr s.r (divide_shifts W y)) })) := by
  have hyw := sig_words_pos hW y hy
  unfold divide_run divide_entry
  rw [if_neg (by simp [is_zero, hy])]
  simp only [divide_y, divide_t, divide_n, divide_shifts, hyw, if_true, bind, Except.bind,
    pure, Except.pure]
  cases reduce_below _ _ with
  | error e => rfl
  | ok p =>
    dsimp only
    cases set_word _ _ _ with
    | error e => rfl
    | ok q => rfl



theorem digit_loop_log_self (W y_t0 y_t1 t : Nat) (s : LoopState) :
    digit_loop_log W y_t0 y_t1 t t s = [] := by
  cases t <;> simp [digit_loop_log]

theorem digit_loop_log_succ (W y_t0 y_t1 t k : Nat) (s : LoopState) :
    digit_loop_log W y_t0 y_t1 t (t + k + 1) s
      = (t + k + 1, { s with branches := s.branches ++ [true] }) ::
          match loop_body W y_t0 y_t1 t (t + k + 1)
              { s with branches := s.branches ++ [true] } with
          | .ok s1 => digit_loop_log W y_t0 y_t1 t (t + k) s1
          | .error _ => [] := by
  rw [digit_loop_log]
  rw [if_neg (by omega)]

/-- The iterations of the digit loop, started at `j = t + k` on a remainder below
`Yn * B ^ k`: there are `k` of them, for `j = t + k` down to `t + 1`, and each
is entered with a remainder below the divisor at the alignment of entry. -/
theorem digit_loop_log_spec {W : Nat} (hW : 0 < W) (Yn t : Nat)
    (hY1 : Yn < (2 ^ W) ^ (t + 1)) (hY2 : 2 ^ (W - 1) * (2 ^ W) ^ t ≤ Yn) :
    ∀ (k : Nat) (s : LoopState) (rn : Nat),
      s.r = (rn : Int) → rn < Yn * (2 ^ W) ^ k →
      s.shifted_y = ((Yn * (2 ^ W) ^ k : Nat) : Int) →
      k ≤ s.q_words.length →
      (digit_loop_log W (word_at W (Yn : Int) t) (word_at W (Yn : Int) (size_sub t 1)) t
          (t + k) s).map Prod.fst = (List.range' (t + 1) k).reverse ∧
      ∀ p ∈ digit_loop_log W (word_at W (Yn : Int) t) (word_at W (Yn : Int) (size_sub t 1)) t
          (t + k) s,
        ∃ (i rn1 : Nat), i < k ∧ p.1 = t + i + 1 ∧ p.2.r = (rn1 : Int) ∧
          rn1 < Yn * (2 ^ W) ^ (i + 1) ∧
          p.2.shifted_y = ((Yn * (2 ^ W) ^ (i + 1) : Nat) : Int) ∧
          p.2.q_words.length = s.q_words.length := by
  have hB0 := two_pow_pos_word W
  have hYn : 0 < Yn :=
    lt_of_lt_of_le (Nat.mul_pos (Nat.pow_pos (by decide)) (Nat.pow_pos hB0)) hY2
  intro k
  induction k with
  | zero =>
    intro s rn _ _ _ _
    rw [Nat.add_zero, digit_loop_log_self]
    simp
  | succ k ih =>
    intro s rn hr hrn hsy hlen
    have hS : 0 < Yn * (2 ^ W) ^ k := Nat.mul_pos hYn (Nat.pow_pos hB0)
    have hb := loop_body_spec hW Yn rn t k { s with branches := s.branches ++ [true] }
      hY1 hY2 hr hrn hsy (by simpa using hlen)
    obtain ⟨h1, h2⟩ := ih
      { r := ((rn % (Yn * (2 ^ W) ^ k) : Nat) : Int),
        shifted_y := ((Yn * (2 ^ W) ^ k : Nat) : Int),
        q_words := s.q_words.set k (rn / (Yn * (2 ^ W) ^ k)),
        iterations := s.iterations + 1,
        checks := s.checks + 2,
        branches := s.branches ++ [true] }
      (rn % (Yn * (2 ^ W) ^ k)) rfl (Nat.mod_lt _ hS) rfl (by simp; omega)
    rw [← Nat.add_assoc, digit_loop_log_succ, hb]
    constructor
    · rw [List.range'_concat, List.reverse_append, List.map_cons]
      simp only [List.reverse_cons, List.reverse_nil, List.nil_append, List.singleton_append,
        Nat.one_mul]
      rw [h1]
      congr 1
      omega
    · intro p hp
      rcases List.mem_cons.mp hp with hp | hp
      · subst hp
        exact ⟨k, rn, by omega, rfl, hr, hrn, hsy, rfl⟩
      · obtain ⟨i, rn1, g1, g2, g3, g4, g5, g6⟩ := h2 p hp
        exact ⟨i, rn1, by omega, g2, g3, g4, g5, by rw [g6]; simp⟩


/-- The iterations of the digit loop in a run of `divide` with a nonzero divisor:
they are those for `j = n` down to `t + 1`, and each is entered with a remainder
below the normalised divisor at the alignment of entry, and with the quotient
at its `n - t + 1` words. -/
theorem divide_iterations_spec {W : Nat} (hW : 0 < W) (x y : Int) (hy : y ≠ 0) :
    (divide_iterations W x y).map Prod.fst
      = (List.range' (divide_t W y + 1) (divide_n W x y - divide_t W y)).reverse ∧
    ∀ p ∈ divide_iterations W x y,
      ∃ (i rn1 : Nat), i < divide_n W x y - divide_t W y ∧ p.1 = divide_t W y + i + 1 ∧
        p.2.r = (rn1 : Int) ∧
        rn1 < y.natAbs * 2 ^ divide_shifts W y * (2 ^ W) ^ (i + 1) ∧
        p.2.shifted_y = ((y.natAbs * 2 ^ divide_shifts W y * (2 ^ W) ^ (i + 1) : Nat) : Int) ∧
        p.2.q_words.length = divide_n W x y - divide_t W y + 1 := by
  obtain ⟨e1, e2, e3, e4, e5, e6, e7, e8⟩ := divide_entry_spec hW x y hy
  have hB0 := two_pow_pos_word W
  have hYn : 0 < y.natAbs * 2 ^ divide_shifts W y :=
    Nat.mul_pos (Int.natAbs_pos.mpr hy) (Nat.pow_pos (by decide))
  unfold divide_iterations
  rw [e8, e1]
  dsimp only
  obtain ⟨k, hk⟩ : ∃ k, divide_n W x y = divide_t W y + k :=
    ⟨divide_n W x y - divide_t W y, by omega⟩
  rw [hk, Nat.add_sub_cancel_left]
  generalize y.natAbs * 2 ^ divide_shifts W y = Yn at *
  generalize x.natAbs * 2 ^ divide_shifts W y = Rn at *
  generalize divide_t W y = t at *
  have hl := digit_loop_log_spec hW Yn t e5 e6 k
    { r := ((Rn % (Yn * (2 ^ W) ^ k) : Nat) : Int),
      shifted_y := ((Yn * (2 ^ W) ^ k : Nat) : Int),
      q_words := List.replicate k 0 ++ [Rn / (Yn * (2 ^ W) ^ k)],
      iterations := 0, checks := 0, branches := [false] }
    (Rn % (Yn * (2 ^ W) ^ k)) rfl (Nat.mod_lt _ (Nat.mul_pos hYn (Nat.pow_pos hB0))) rfl
    (by simp)
  refine ⟨hl.1, fun p hp => ?_⟩
  obtain ⟨i, rn1, g1, g2, g3, g4, g5, g6⟩ := hl.2 p hp
  exact ⟨i, rn1, g1, g2, g3, g4, g5, by rw [g6]; simp⟩

/-- The estimate of a quotient digit (HAC 14.23): for a normalised divisor `Yn`
of `t + 1` words and a remainder `r` below `Yn * B ^ (k + 1)`, the saturated
quotient of the top two remainder words by the top divisor word is at least
the true digit `r / (Yn * B ^ k)` and at most 2 more. -/
theorem estimate_bounds (B H Yn r t k : Nat) (hB : B = 2 * H) (hH : 0 < H)
    (hY1 : Yn < B ^ (t + 1)) (hY2 : H * B ^ t ≤ Yn) (hr : r < Yn * B ^ (k + 1)) :
    let v1 := Yn / B ^ t % B
    let u2 := r / B ^ (t + k + 1) % B
    let u1 := r / B ^ (t + k) % B
    let qhat := if u2 = v1 then B - 1 else (u2 * B + u1) / v1 % B
    let qt := r / (Yn * B ^ k)
    qt ≤ qhat ∧ qhat ≤ qt + 2 := by
  dsimp only
  obtain ⟨g1, g2, g3, g4, g5, g6, g7, g8, g9, -⟩ :=
    digit_words_spec B H Yn r t k hB hH hY1 hY2 hr
  have hB0 : 0 < B := by omega
  have hPt : 0 < B ^ t := Nat.pow_pos hB0
  have hPk : 0 < B ^ k := Nat.pow_pos hB0
  have hYn : 0 < Yn := lt_of_lt_of_le (Nat.mul_pos hH hPt) hY2
  have hS : 0 < Yn * B ^ k := Nat.mul_pos hYn hPk
  -- the top divisor word and the top two remainder words
  have hv1lt : Yn / B ^ t < B := Nat.div_lt_of_lt_mul (by rwa [pow_succ] at hY1)
  have hYlt : Yn < (Yn / B ^ t % B + 1) * B ^ t := by
    rw [Nat.mod_eq_of_lt hv1lt]; exact (Nat.div_lt_iff_lt_mul hPt).mp (Nat.lt_succ_self _)
  have hrlt : r < B ^ (t + k + 1) * B := by
    have : Yn * B ^ (k + 1) < B ^ (t + 1) * B ^ (k + 1) :=
      Nat.mul_lt_mul_of_pos_right hY1 (Nat.pow_pos hB0)
    have e : B ^ (t + 1) * B ^ (k + 1) = B ^ (t + k + 1) * B := by
      rw [← pow_add, ← pow_succ]; congr 1; omega
    omega
  have hU : (r / B ^ (t + k + 1) % B * B + r / B ^ (t + k) % B) * (B ^ t * B ^ k) ≤ r := by
    rw [← pow_add, Nat.mod_eq_of_lt (Nat.div_lt_of_lt_mul hrlt)]
    have := Nat.div_add_mod (r / B ^ (t + k)) B
    rw [Nat.div_div_eq_div_mul, ← pow_succ, Nat.mul_comm] at this
    rw [this]
    exact Nat.div_mul_le_self _ _
  have hq2 : r < (r / (Yn * B ^ k) + 1) * (Yn * B ^ k) :=
    (Nat.div_lt_iff_lt_mul hS).mp (Nat.lt_succ_self _)
  obtain ⟨f1, f2, f3⟩ := estimate_spec B _ _ _ g1 g2 g5 g6
  generalize Yn / B ^ t % B = v1 at *
  generalize (if 1 ≤ t then Yn / B ^ (t - 1) % B else 0) = v0 at *
  generalize r / B ^ (t + k + 1) % B = u2 at *
  generalize r / B ^ (t + k) % B = u1 at *
  generalize (if 1 ≤ t + k then r / B ^ (t + k - 1) % B else 0) = u0 at *
  generalize (if u2 = v1 then B - 1 else (u2 * B + u1) / v1 % B) = qhat at *
  generalize r / (Yn * B ^ k) = qt at *
  constructor
  · apply f3 qt g8
    have a1 : qt * v1 * B ≤ qt * (v1 * B + v0) := by
      rw [Nat.mul_assoc]; exact Nat.mul_le_mul_left _ (by omega)
    have a2 : qt * v1 * B < (u2 * B + u1 + 1) * B := by
      have : (u2 * B + u1 + 1) * B = u2 * (B * B) + (u1 * B + B) := by ring
      omega
    have := Nat.lt_of_mul_lt_mul_right a2
    omega
  · by_contra hcon
    have hq3 : qt + 3 ≤ qhat := by omega
    have b1 : qhat * v1 * (B ^ t * B ^ k) ≤ r :=
      le_trans (Nat.mul_le_mul_right _ f2) hU
    have b2 : (qt + 1) * (Yn * B ^ k) < (qt + 1) * ((v1 + 1) * B ^ t * B ^ k) :=
      Nat.mul_lt_mul_of_pos_left (Nat.mul_lt_mul_of_pos_right hYlt hPk) (Nat.succ_pos _)
    have b3 : qhat * v1 * (B ^ t * B ^ k) < (qt + 1) * (v1 + 1) * (B ^ t * B ^ k) := by
      calc qhat * v1 * (B ^ t * B ^ k) ≤ r := b1
        _ < (qt + 1) * (Yn * B ^ k) := hq2
        _ < (qt + 1) * ((v1 + 1) * B ^ t * B ^ k) := b2
        _ = (qt + 1) * (v1 + 1) * (B ^ t * B ^ k) := by ring
    have b4 := Nat.lt_of_mul_lt_mul_right b3
    have b5 : (qt + 3) * v1 ≤ qhat * v1 := Nat.mul_le_mul_right _ hq3
    have b6 : (qt + 3) * v1 = (qt + 1) * v1 + 2 * v1 := by ring
    have b7 : (qt + 1) * (v1 + 1) = (qt + 1) * v1 + (qt + 1) := by ring
    omega


/-- The words read by an iteration of the digit loop and its estimate, for a
normalised divisor `Yn` of `t + 1` words whose top word has its high bit set
and a remainder `rn` below `Yn * B ^ (k + 1)`: the estimate succeeds with the
saturated quotient, and the facts of `digit_words_spec` hold of the words. -/
theorem loop_estimate_spec {W : Nat} (hW : 0 < W) (Yn rn t k : Nat)
    (hY1 : Yn < (2 ^ W) ^ (t + 1)) (hY2 : 2 ^ (W - 1) ≤ word_at W (Yn : Int) t)
    (hr : rn < Yn * (2 ^ W) ^ (k + 1)) :
    2 ^ (W - 1) * (2 ^ W) ^ t ≤ Yn ∧
    word_at W (Yn : Int) t = Yn / (2 ^ W) ^ t % 2 ^ W ∧
    word_at W (Yn : Int) (size_sub t 1)
      = (if 1 ≤ t then Yn / (2 ^ W) ^ (t - 1) % 2 ^ W else 0) ∧
    word_at W (rn : Int) (t + k + 1) = rn / (2 ^ W) ^ (t + k + 1) % 2 ^ W ∧
    word_at W (rn : Int) (size_sub (t + k + 1) 1) = rn / (2 ^ W) ^ (t + k) % 2 ^ W ∧
    word_at W (rn : Int) (size_sub (t + k + 1) 2)
      = (if 1 ≤ t + k then rn / (2 ^ W) ^ (t + k - 1) % 2 ^ W else 0) ∧
    loop_estimate W (word_at W (Yn : Int) t) (word_at W (rn : Int) (t + k + 1))
        (word_at W (rn : Int) (size_sub (t + k + 1) 1))
      = .ok (if rn / (2 ^ W) ^ (t + k + 1) % 2 ^ W = Yn / (2 ^ W) ^ t % 2 ^ W then 2 ^ W - 1
              else (rn / (2 ^ W) ^ (t + k + 1) % 2 ^ W * 2 ^ W
                      + rn / (2 ^ W) ^ (t + k) % 2 ^ W)
                    / (Yn / (2 ^ W) ^ t % 2 ^ W) % 2 ^ W) := by
  have hB0 := two_pow_pos_word W
  have hBH : 2 ^ W = 2 * 2 ^ (W - 1) := by
    rw [← pow_succ']; congr 1; omega
  have hH : 0 < 2 ^ (W - 1) := Nat.pow_pos (by decide)
  have ey0 : word_at W (Yn : Int) t = Yn / (2 ^ W) ^ t % 2 ^ W := by
    rw [word_at_eq hW]; rfl
  have hY2' : 2 ^ (W - 1) * (2 ^ W) ^ t ≤ Yn := by
    rw [ey0] at hY2
    have h1 : 2 ^ (W - 1) ≤ Yn / (2 ^ W) ^ t := le_trans hY2 (Nat.mod_le _ _)
    exact (Nat.le_div_iff_mul_le (Nat.pow_pos hB0)).mp h1
  obtain ⟨g1, g2, g3, g4, g5, g6, g7, g8, g9, g10⟩ :=
    digit_words_spec (2 ^ W) (2 ^ (W - 1)) Yn rn t k hBH hH hY1 hY2' hr
  have ex0 : word_at W (rn : Int) (t + k + 1) = rn / (2 ^ W) ^ (t + k + 1) % 2 ^ W := by
    rw [word_at_eq hW]; rfl
  have ex1 : word_at W (rn : Int) (size_sub (t + k + 1) 1)
      = rn / (2 ^ W) ^ (t + k) % 2 ^ W := by
    rw [size_sub_of_le (by omega), word_at_eq hW]; rfl
  have ex2 : word_at W (rn : Int) (size_sub (t + k + 1) 2)
      = if 1 ≤ t + k then rn / (2 ^ W) ^ (t + k - 1) % 2 ^ W else 0 := by
    split
    · rw [size_sub_of_le (by omega), word_at_eq hW]
      rw [show t + k + 1 - 2 = t + k - 1 by omega]; rfl
    · have ht : t = 0 := by omega
      have hk : k = 0 := by omega
      subst ht hk
      apply word_at_eq_zero hW _ _ 2
      · simp only [Int.natAbs_ofNat]
        simp only [Nat.zero_add, pow_one] at hr hY1
        calc rn < Yn * 2 ^ W := hr
          _ < 2 ^ W * 2 ^ W := Nat.mul_lt_mul_of_pos_right hY1 hB0
          _ = (2 ^ W) ^ 2 := by ring
      · decide
  have ey1 : word_at W (Yn : Int) (size_sub t 1)
      = if 1 ≤ t then Yn / (2 ^ W) ^ (t - 1) % 2 ^ W else 0 := by
    split
    · rw [size_sub_of_le (by omega), word_at_eq hW]; rfl
    · have ht : t = 0 := by omega
      subst ht
      apply word_at_eq_zero hW _ _ 1
      · simpa using hY1
      · decide
  refine ⟨hY2', ey0, ey1, ex0, ex1, ex2, ?_⟩
  rw [ex0, ex1, ey0]
  unfold loop_estimate
  have ed : bigint_divop W (rn / (2 ^ W) ^ (t + k + 1) % 2 ^ W) (rn / (2 ^ W) ^ (t + k) % 2 ^ W)
      (Yn / (2 ^ W) ^ t % 2 ^ W)
      = .ok ((rn / (2 ^ W) ^ (t + k + 1) % 2 ^ W * 2 ^ W + rn / (2 ^ W) ^ (t + k) % 2 ^ W)
              / (Yn / (2 ^ W) ^ t % 2 ^ W) % 2 ^ W) := by
    simp [bigint_divop, Nat.pos_iff_ne_zero.mp g2]
  rw [ed]
  simp only [bind, Except.bind, pure, Except.pure]
  rw [ct_is_equal, ct_select_expand W _ _ _ (by unfold MP_WORD_MAX; omega) (Nat.mod_lt _ hB0)]
  simp [MP_WORD_MAX]


/-! ## The claims on the digit loop, the set-up and the entry point -/

/-- Claim C11, as stated, fails: with 64-bit words `divide(7, 2)` evaluates
`division_check` twice and produces a quotient of two words (the top one set by
`reduce_below`), and `divide(3, 5)` evaluates it never and produces one word. -/
theorem divide_checks_not_twice_words :
    (divide_run 64 7 2).map (fun run => (run.checks, run.q_size)) = .ok (2, 2) ∧
    (divide_run 64 3 5).map (fun run => (run.checks, run.q_size)) = .ok (0, 1) ∧
    (2 : Nat) ≠ 2 * 2 ∧ (0 : Nat) ≠ 2 * 1 := by
  refine ⟨rfl, rfl, by decide, by decide⟩

/-- Claim C11, amended: for a nonzero divisor, the number of `division_check`
evaluations of `divide` is exactly 2 times the number of iterations of the
digit loop, each of which produces one quotient word; that is 2 times the
number of quotient words less one, the most significant word being set by
`reduce_below` without a check. The number is `2 * (n - t)`, the same for
operands of the same bit lengths. -/
theorem divide_checks_count (W : Nat) (x y x' y' : Int) (hW : 0 < W) (hy : y ≠ 0)
    (hy' : y' ≠ 0) (hbx : bits x = bits x') (hby : bits y = bits y') :
    ∃ run run' : Run, divide_run W x y = .ok run ∧ divide_run W x' y' = .ok run' ∧
      run.checks = 2 * run.iterations ∧
      run.iterations = (divide_iterations W x y).length ∧
      run.q_size = run.iterations + 1 ∧
      run.checks = 2 * (run.q_size - 1) ∧
      run.checks = 2 * (divide_n W x y - divide_t W y) ∧
      run'.checks = run.checks := by
  obtain ⟨e1, e2⟩ := divide_n_t_congr hW x y x' y' hy hy' hbx hby
  have hl := congrArg List.length (divide_iterations_spec hW x y hy).1
  simp only [List.length_map, List.length_reverse, List.length_range'] at hl
  refine ⟨_, _, divide_run_spec hW x y hy, divide_run_spec hW x' y' hy', rfl, hl.symm, rfl,
    ?_, rfl, ?_⟩
  · simp
  · simp only [e1, e2]

/-- Witness of `divide_checks_count`, at `(7, 2)` and `(6, 3)` and 64-bit words. -/
theorem divide_checks_count_witness :
    (0 < 64 ∧ (2 : Int) ≠ 0 ∧ (3 : Int) ≠ 0 ∧ bits 7 = bits 6 ∧ bits 2 = bits 3) ∧
    (∃ run run' : Run, divide_run 64 (7 : Int) (2 : Int) = .ok run ∧
      divide_run 64 (6 : Int) (3 : Int) = .ok run' ∧
        run.checks = 2 * run.iterations ∧
        run.iterations = (divide_iterations 64 (7 : Int) (2 : Int)).length ∧
        run.q_size = run.iterations + 1 ∧
        run.checks = 2 * (run.q_size - 1) ∧
        run.checks = 2 * (divide_n 64 (7 : Int) (2 : Int) - divide_t 64 (2 : Int)) ∧
        run'.checks = run.checks) :=
  ⟨⟨by decide, by decide, by decide, by decide, by decide⟩,
    divide_checks_count 64 7 2 6 3 (by decide) (by decide) (by decide) (by decide) (by decide)⟩

/-- Claim C12: for all words, `division_check(q, y2, y1, x3, x2, x1)` is true
exactly when the exact three-word product `q * (y2 * 2^W + y1)` exceeds
`x3 * 2^(2W) + x2 * 2^W + x1`. -/
theorem division_check_iff (W q y2 y1 x3 x2 x1 : Nat) (hq : q < 2 ^ W) (hy2 : y2 < 2 ^ W)
    (hy1 : y1 < 2 ^ W) (hx3 : x3 < 2 ^ W) (hx2 : x2 < 2 ^ W) (hx1 : x1 < 2 ^ W) :
    division_check W q y2 y1 x3 x2 x1 = true
      ↔ q * (y2 * 2 ^ W + y1) > x3 * 2 ^ (2 * W) + x2 * 2 ^ W + x1 := by
  rcases Nat.eq_zero_or_pos W with h0 | hW
  · subst h0
    simp only [pow_zero, Nat.lt_one_iff] at hq hy2 hy1 hx3 hx2 hx1
    subst hq hy2 hy1 hx3 hx2 hx1
    decide
  · rw [division_check_eq hW q y2 y1 x3 x2 x1 hq hy2 hy1 hx2 hx1, decide_eq_true_iff,
      show 2 ^ (2 * W) = 2 ^ W * 2 ^ W by rw [two_mul, pow_add]]
    constructor <;> intro h <;> omega

/-- Witness of `division_check_iff`, at `q = 200`, `(y2, y1) = (150, 7)`, `(x3, x2, x1) = (117, 50, 3)` and 8-bit words. -/
theorem division_check_iff_witness :
    (200 < 2 ^ 8 ∧ 150 < 2 ^ 8 ∧ 7 < 2 ^ 8 ∧ 117 < 2 ^ 8 ∧ 50 < 2 ^ 8 ∧ 3 < 2 ^ 8) ∧
    (division_check 8 200 150 7 117 50 3 = true
        ↔ 200 * (150 * 2 ^ 8 + 7) > 117 * 2 ^ (2 * 8) + 50 * 2 ^ 8 + 3) :=
  ⟨⟨by decide, by decide, by decide, by decide, by decide, by decide⟩,
    division_check_iff 8 200 150 7 117 50 3 (by decide) (by decide) (by decide) (by decide)
      (by decide) (by decide)⟩

/-- Claim C13: in every iteration `j` of the digit loop of `divide` (nonzero
divisor), the body succeeds; with `r_before` the remainder on entry and `S` the
shifted divisor after the one-word right shift, `S = y << (W * (j - t - 1))`
for the normalised `y`, the digit `qjt` stored at index `j - t - 1` and the new
remainder `r` satisfy `r_before = qjt * S + r` and `0 ≤ r < S`, so that the
stored digit is `r_before / S`; the remainder on entry is itself nonnegative
and below the shifted divisor on entry. -/
theorem digit_invariant (W : Nat) (x y : Int) (hW : 0 < W) (hy : y ≠ 0) :
    ∀ p ∈ divide_iterations W x y,
      ∃ (s1 : LoopState) (qjt : Nat),
        loop_body W (word_at W (divide_y W y) (divide_t W y))
            (word_at W (divide_y W y) (size_sub (divide_t W y) 1))
            (divide_t W y) p.1 p.2 = .ok s1 ∧
        s1.shifted_y = shr p.2.shifted_y W ∧
        s1.shifted_y = shl (divide_y W y) (W * (p.1 - divide_t W y - 1)) ∧
        p.1 - divide_t W y - 1 < p.2.q_words.length ∧
        s1.q_words = p.2.q_words.set (p.1 - divide_t W y - 1) qjt ∧
        p.2.r = (qjt : Int) * s1.shifted_y + s1.r ∧ 0 ≤ s1.r ∧ s1.r < s1.shifted_y ∧
        (qjt : Int) = p.2.r / s1.shifted_y ∧
        0 ≤ p.2.r ∧ p.2.r < p.2.shifted_y := by
  intro p hp
  obtain ⟨e1, -, -, -, e5, e6, -, -⟩ := divide_entry_spec hW x y hy
  obtain ⟨i, rn1, g1, g2, g3, g4, g5, g6⟩ := (divide_iterations_spec hW x y hy).2 p hp
  have hB0 := two_pow_pos_word W
  have hYn : 0 < y.natAbs * 2 ^ divide_shifts W y :=
    Nat.mul_pos (Int.natAbs_pos.mpr hy) (Nat.pow_pos (by decide))
  rw [e1, g2]
  generalize y.natAbs * 2 ^ divide_shifts W y = Yn at *
  generalize divide_t W y = t at *
  have hS : 0 < Yn * (2 ^ W) ^ i := Nat.mul_pos hYn (Nat.pow_pos hB0)
  have hb := loop_body_spec hW Yn rn1 t i p.2 e5 e6 g3 g4 g5 (by omega)
  have hsh : shr p.2.shifted_y W = ((Yn * (2 ^ W) ^ i : Nat) : Int) := by
    rw [g5, shr_natCast, pow_succ, ← Nat.mul_assoc, Nat.mul_div_cancel _ hB0]
  have hidx : t + i + 1 - t - 1 = i := by omega
  have hdm := Nat.div_add_mod rn1 (Yn * (2 ^ W) ^ i)
  have hlt := Nat.mod_lt rn1 hS
  refine ⟨_, rn1 / (Yn * (2 ^ W) ^ i), hb, ?_, ?_, ?_, ?_, ?_, ?_, ?_, ?_, ?_, ?_⟩
  · exact hsh.symm
  · rw [hidx, shl_natCast, pow_mul]
  · rw [hidx]; omega
  · rw [hidx]
  · rw [g3]
    show (rn1 : Int) = ((rn1 / (Yn * (2 ^ W) ^ i) : Nat) : Int) * ((Yn * (2 ^ W) ^ i : Nat) : Int)
      + ((rn1 % (Yn * (2 ^ W) ^ i) : Nat) : Int)
    rw [← Nat.cast_mul, ← Nat.cast_add, Nat.mul_comm]
    exact_mod_cast hdm.symm
  · exact Int.ofNat_nonneg _
  · show ((rn1 % (Yn * (2 ^ W) ^ i) : Nat) : Int) < ((Yn * (2 ^ W) ^ i : Nat) : Int)
    exact_mod_cast hlt
  · rw [g3]
    exact Int.natCast_div _ _
  · rw [g3]; exact Int.ofNat_nonneg _
  · rw [g3, g5]
    exact_mod_cast g4

/-- Witness of `digit_invariant`, at `x = 7`, `y = 2` and 64-bit words. -/
theorem digit_invariant_witness :
    (0 < 64 ∧ (2 : Int) ≠ 0) ∧
    (∀ p ∈ divide_iterations 64 (7 : Int) (2 : Int),
        ∃ (s1 : LoopState) (qjt : Nat),
          loop_body 64 (word_at 64 (divide_y 64 (2 : Int)) (divide_t 64 (2 : Int)))
              (word_at 64 (divide_y 64 (2 : Int)) (size_sub (divide_t 64 (2 : Int)) 1))
              (divide_t 64 (2 : Int)) p.1 p.2 = .ok s1 ∧
          s1.shifted_y = shr p.2.shifted_y 64 ∧
          s1.shifted_y = shl (divide_y 64 (2 : Int)) (64 * (p.1 - divide_t 64 (2 : Int) - 1)) ∧
          p.1 - divide_t 64 (2 : Int) - 1 < p.2.q_words.length ∧
          s1.q_words = p.2.q_words.set (p.1 - divide_t 64 (2 : Int) - 1) qjt ∧
          p.2.r = (qjt : Int) * s1.shifted_y + s1.r ∧ 0 ≤ s1.r ∧ s1.r < s1.shifted_y ∧
          (qjt : Int) = p.2.r / s1.shifted_y ∧
          0 ≤ p.2.r ∧ p.2.r < p.2.shifted_y) :=
  ⟨⟨by decide, by decide⟩,
    digit_invariant 64 7 2 (by decide) (by decide)⟩

/-- Claim C14: in an iteration of the digit loop for the index `j = t + k + 1`,
when the top word `y_t0` of the normalised divisor `Yn` has its high bit set
and the entry remainder `rn` is below the shifted divisor `Yn * B ^ (k + 1)`,
the raw estimate (`bigint_divop(x_j0, x_j1, y_t0)`, saturated to
`MP_WORD_MAX` when `x_j0 = y_t0`) is computed without error, is not smaller
than the true quotient digit `rn / (Yn * B ^ k)`, and exceeds it by at most 2. -/
theorem estimate_error_bound (W Yn rn t k y_t0 x_j0 x_j1 : Nat) (hW : 0 < W)
    (hY1 : Yn < (2 ^ W) ^ (t + 1)) (hy0 : y_t0 = word_at W (Yn : Int) t)
    (hY2 : 2 ^ (W - 1) ≤ y_t0) (hr : rn < Yn * (2 ^ W) ^ (k + 1))
    (hx0 : x_j0 = word_at W (rn : Int) (t + k + 1))
    (hx1 : x_j1 = word_at W (rn : Int) (size_sub (t + k + 1) 1)) :
    ∃ qjt : Nat, loop_estimate W y_t0 x_j0 x_j1 = .ok qjt ∧ qjt ≤ MP_WORD_MAX W ∧
      rn / (Yn * (2 ^ W) ^ k) ≤ qjt ∧ qjt ≤ rn / (Yn * (2 ^ W) ^ k) + 2 := by
  subst hy0 hx0 hx1
  have hB0 := two_pow_pos_word W
  have hBH : 2 ^ W = 2 * 2 ^ (W - 1) := by
    rw [← pow_succ']; congr 1; omega
  have hH : 0 < 2 ^ (W - 1) := Nat.pow_pos (by decide)
  obtain ⟨hY2', -, -, -, -, -, hest⟩ := loop_estimate_spec hW Yn rn t k hY1 hY2 hr
  have hb := estimate_bounds (2 ^ W) (2 ^ (W - 1)) Yn rn t k hBH hH hY1 hY2' hr
  dsimp only at hb
  obtain ⟨g1, g2, -, -, g5, g6, -, -, -, -⟩ :=
    digit_words_spec (2 ^ W) (2 ^ (W - 1)) Yn rn t k hBH hH hY1 hY2' hr
  obtain ⟨f1, -, -⟩ := estimate_spec (2 ^ W) _ _ _ g1 g2 g5 g6
  refine ⟨_, hest, ?_, hb.1, hb.2⟩
  unfold MP_WORD_MAX
  omega

/-- Witness of `estimate_error_bound`, at the two-word divisor `32769`, the remainder `5000000` and 8-bit words. -/
theorem estimate_error_bound_witness :
    (0 < 8 ∧ 32769 < (2 ^ 8) ^ (1 + 1) ∧ 128 = word_at 8 ((32769 : Nat) : Int) 1 ∧
      2 ^ (8 - 1) ≤ 128 ∧ 5000000 < 32769 * (2 ^ 8) ^ (0 + 1) ∧
      76 = word_at 8 ((5000000 : Nat) : Int) (1 + 0 + 1) ∧
      75 = word_at 8 ((5000000 : Nat) : Int) (size_sub (1 + 0 + 1) 1)) ∧
    (∃ qjt : Nat, loop_estimate 8 128 76 75 = .ok qjt ∧ qjt ≤ MP_WORD_MAX 8 ∧
        5000000 / (32769 * (2 ^ 8) ^ 0) ≤ qjt ∧ qjt ≤ 5000000 / (32769 * (2 ^ 8) ^ 0) + 2) :=
  ⟨⟨by decide, by decide, by decide, by decide, by decide, by decide, by decide⟩,
    estimate_error_bound 8 32769 5000000 1 0 128 76 75 (by decide) (by decide) (by decide)
      (by decide)
      (by decide) (by decide) (by decide)⟩

/-- Claim C15: in an iteration of the digit loop for the index `j = t + k + 1`,
with a normalised divisor and an entry remainder below the shifted divisor,
after the two unconditional correction steps a third `division_check` returns
false, neither decrement wraps `qjt` below zero, and the second step leaves
`qjt` unchanged when the check of the first step's result is false. -/
theorem two_corrections_suffice (W Yn rn t k y_t0 y_t1 x_j0 x_j1 x_j2 : Nat) (hW : 0 < W)
    (hY1 : Yn < (2 ^ W) ^ (t + 1)) (hy0 : y_t0 = word_at W (Yn : Int) t)
    (hy1 : y_t1 = word_at W (Yn : Int) (size_sub t 1))
    (hY2 : 2 ^ (W - 1) ≤ y_t0) (hr : rn < Yn * (2 ^ W) ^ (k + 1))
    (hx0 : x_j0 = word_at W (rn : Int) (t + k + 1))
    (hx1 : x_j1 = word_at W (rn : Int) (size_sub (t + k + 1) 1))
    (hx2 : x_j2 = word_at W (rn : Int) (size_sub (t + k + 1) 2)) :
    ∃ qjt0 qjt1 qjt2 : Nat,
      loop_estimate W y_t0 x_j0 x_j1 = .ok qjt0 ∧
      loop_correct W qjt0 y_t0 y_t1 x_j0 x_j1 x_j2 = qjt1 ∧
      loop_correct W qjt1 y_t0 y_t1 x_j0 x_j1 x_j2 = qjt2 ∧
      division_check W qjt2 y_t0 y_t1 x_j0 x_j1 x_j2 = false ∧
      (division_check W qjt0 y_t0 y_t1 x_j0 x_j1 x_j2 = true → 0 < qjt0) ∧
      qjt1 = qjt0 - (division_check W qjt0 y_t0 y_t1 x_j0 x_j1 x_j2).toNat ∧
      (division_check W qjt1 y_t0 y_t1 x_j0 x_j1 x_j2 = true → 0 < qjt1) ∧
      qjt2 = qjt1 - (division_check W qjt1 y_t0 y_t1 x_j0 x_j1 x_j2).toNat ∧
      (division_check W qjt1 y_t0 y_t1 x_j0 x_j1 x_j2 = false → qjt2 = qjt1) := by
  subst hy0 hy1 hx0 hx1 hx2
  have hB0 := two_pow_pos_word W
  have hBH : 2 ^ W = 2 * 2 ^ (W - 1) := by
    rw [← pow_succ']; congr 1; omega
  have hH : 0 < 2 ^ (W - 1) := Nat.pow_pos (by decide)
  obtain ⟨hY2', ey0, ey1, ex0, ex1, ex2, hest⟩ := loop_estimate_spec hW Yn rn t k hY1 hY2 hr
  obtain ⟨g1, g2, g3, g4, g5, g6, g7, -, -, -⟩ :=
    digit_words_spec (2 ^ W) (2 ^ (W - 1)) Yn rn t k hBH hH hY1 hY2' hr
  obtain ⟨f1, f2, -⟩ := estimate_spec (2 ^ W) _ _ _ g1 g2 g5 g6
  rw [hest]
  rw [ey0, ey1, ex0, ex1, ex2]
  generalize Yn / (2 ^ W) ^ t % 2 ^ W = v1 at *
  generalize (if 1 ≤ t then Yn / (2 ^ W) ^ (t - 1) % 2 ^ W else 0) = v0 at *
  generalize rn / (2 ^ W) ^ (t + k + 1) % 2 ^ W = u2 at *
  generalize rn / (2 ^ W) ^ (t + k) % 2 ^ W = u1 at *
  generalize (if 1 ≤ t + k then rn / (2 ^ W) ^ (t + k - 1) % 2 ^ W else 0) = u0 at *
  generalize (if u2 = v1 then 2 ^ W - 1 else (u2 * 2 ^ W + u1) / v1 % 2 ^ W) = qhat at *
  have tc := two_checks_spec (2 ^ W) v1 v0 u2 u1 u0 qhat g3 g4 f1 f2
  dsimp only at tc
  obtain ⟨c1, c2, c3, c4, -⟩ := tc
  have d0 := division_check_eq hW qhat v1 v0 u2 u1 u0 f1 g1 g4 g6 g7
  rw [← d0] at c1 c2 c3 c4
  have e1 : loop_correct W qhat v1 v0 u2 u1 u0
      = qhat - (division_check W qhat v1 v0 u2 u1 u0).toNat := by
    unfold loop_correct
    exact word_sub_flag W qhat _ f1 c1
  generalize hq1 : qhat - (division_check W qhat v1 v0 u2 u1 u0).toNat = q1 at *
  have f1' : q1 < 2 ^ W := by omega
  have d1 := division_check_eq hW q1 v1 v0 u2 u1 u0 f1' g1 g4 g6 g7
  rw [← d1] at c2 c3 c4
  have e2 : loop_correct W q1 v1 v0 u2 u1 u0
      = q1 - (division_check W q1 v1 v0 u2 u1 u0).toNat := by
    unfold loop_correct
    exact word_sub_flag W q1 _ f1' c2
  generalize hq2 : q1 - (division_check W q1 v1 v0 u2 u1 u0).toNat = q2 at *
  have f1'' : q2 < 2 ^ W := by omega
  have d2 := division_check_eq hW q2 v1 v0 u2 u1 u0 f1'' g1 g4 g6 g7
  refine ⟨qhat, q1, q2, rfl, e1, e2, ?_, c1, hq1.symm, c2, hq2.symm, ?_⟩
  · rw [d2]
    simp only [decide_eq_false_iff_not, not_lt]
    exact c3
  · intro h
    rw [h] at hq2
    simpa using hq2.symm

/-- Witness of `two_corrections_suffice`, at the two-word divisor `32769`, the remainder `5000000` and 8-bit words. -/
theorem two_corrections_suffice_witness :
    (0 < 8 ∧ 32769 < (2 ^ 8) ^ (1 + 1) ∧ 128 = word_at 8 ((32769 : Nat) : Int) 1 ∧
      1 = word_at 8 ((32769 : Nat) : Int) (size_sub 1 1) ∧ 2 ^ (8 - 1) ≤ 128 ∧
      5000000 < 32769 * (2 ^ 8) ^ (0 + 1) ∧ 76 = word_at 8 ((5000000 : Nat) : Int) (1 + 0 + 1) ∧
      75 = word_at 8 ((5000000 : Nat) : Int) (size_sub (1 + 0 + 1) 1) ∧
      64 = word_at 8 ((5000000 : Nat) : Int) (size_sub (1 + 0 + 1) 2)) ∧
    (∃ qjt0 qjt1 qjt2 : Nat,
        loop_estimate 8 128 76 75 = .ok qjt0 ∧
        loop_correct 8 qjt0 128 1 76 75 64 = qjt1 ∧
        loop_correct 8 qjt1 128 1 76 75 64 = qjt2 ∧
        division_check 8 qjt2 128 1 76 75 64 = false ∧
        (division_check 8 qjt0 128 1 76 75 64 = true → 0 < qjt0) ∧
        qjt1 = qjt0 - (division_check 8 qjt0 128 1 76 75 64).toNat ∧
        (division_check 8 qjt1 128 1 76 75 64 = true → 0 < qjt1) ∧
        qjt2 = qjt1 - (division_check 8 qjt1 128 1 76 75 64).toNat ∧
        (division_check 8 qjt1 128 1 76 75 64 = false → qjt2 = qjt1)) :=
  ⟨⟨by decide, by decide, by decide, by decide, by decide, by decide, by decide, by decide, by decide⟩,
    two_corrections_suffice 8 32769 5000000 1 0 128 1 76 75 64 (by decide) (by decide) (by decide)
      (by decide) (by decide) (by decide) (by decide) (by decide) (by decide)⟩

/-- Claim C16: for a nonzero divisor, after `y <<= shifts` with
`shifts = top_bits_free`, the divisor keeps its `y_words` significant words
and the word at index `t = y_words - 1` has its top bit set; and the digit loop
leaves the remainder of the normalised operands, which the final right shift
by `shifts` turns into the remainder of the un-normalised magnitudes. -/
theorem normalization (W : Nat) (x y : Int) (hW : 0 < W) (hy : y ≠ 0) :
    divide_shifts W y < W ∧
    sig_words W (divide_y W y) = sig_words W y ∧
    divide_t W y + 1 = sig_words W y ∧
    2 ^ (W - 1) ≤ word_at W (divide_y W y) (divide_t W y) ∧
    word_at W (divide_y W y) (divide_t W y) < 2 ^ W ∧
    ∃ s0 s : LoopState, divide_entry W x y = .ok s0 ∧
      digit_loop W (word_at W (divide_y W y) (divide_t W y))
        (word_at W (divide_y W y) (size_sub (divide_t W y) 1))
        (divide_t W y) (divide_n W x y) s0 = .ok s ∧
      s.r = divide_r W x y % divide_y W y ∧
      shr s.r (divide_shifts W y) = ((x.natAbs % y.natAbs : Nat) : Int) := by
  obtain ⟨e1, e2, e3, e4, e5, e6, e7, e8⟩ := divide_entry_spec hW x y hy
  have hB0 := two_pow_pos_word W
  have hB1 := one_lt_two_pow_word hW
  have hYn : 0 < y.natAbs * 2 ^ divide_shifts W y :=
    Nat.mul_pos (Int.natAbs_pos.mpr hy) (Nat.pow_pos (by decide))
  have hr : divide_r W x y = ((x.natAbs * 2 ^ divide_shifts W y : Nat) : Int) := by
    simp only [divide_r, set_sign_positive, shl_natCast]
  obtain ⟨k, hk⟩ : ∃ k, divide_n W x y = divide_t W y + k :=
    ⟨divide_n W x y - divide_t W y, by omega⟩
  rw [hk, Nat.add_sub_cancel_left] at e8
  rw [e1, hr, hk, e8, e3]
  have hsh : ∀ a b : Nat, (a * 2 ^ divide_shifts W y) % (b * 2 ^ divide_shifts W y)
      / 2 ^ divide_shifts W y = a % b := by
    intro a b
    rw [Nat.mul_mod_mul_right, Nat.mul_div_cancel _ (Nat.pow_pos (by decide))]
  have hsh' := hsh x.natAbs y.natAbs
  generalize y.natAbs * 2 ^ divide_shifts W y = Yn at *
  generalize x.natAbs * 2 ^ divide_shifts W y = Rn at *
  generalize divide_t W y = t at *
  have hS : 0 < Yn * (2 ^ W) ^ k := Nat.mul_pos hYn (Nat.pow_pos hB0)
  have htop : Yn / (2 ^ W) ^ t < 2 ^ W := Nat.div_lt_of_lt_mul (by rwa [pow_succ] at e5)
  have hP : (2 ^ W) ^ t ≤ Yn :=
    le_trans (Nat.le_mul_of_pos_left _ (Nat.pow_pos (by decide))) e6
  refine ⟨e2, ?_, rfl, ?_, word_at_lt _ _ _, ?_⟩
  · apply le_antisymm
    · exact sig_words_le hW _ _ (by simpa using e5)
    · by_contra hcon
      have h1 := lt_pow_sig_words hW (Yn : Int)
      rw [Int.natAbs_ofNat] at h1
      have h2 : (2 ^ W) ^ sig_words W (Yn : Int) ≤ (2 ^ W) ^ t :=
        Nat.pow_le_pow_right hB0 (by omega)
      omega
  · rw [word_at_eq hW, Int.natAbs_ofNat, Nat.mod_eq_of_lt htop]
    exact (Nat.le_div_iff_mul_le (Nat.pow_pos hB0)).mpr e6
  · obtain ⟨lo, -, -, -, l4⟩ := digit_loop_spec hW Yn t e5 e6 k
      { r := ((Rn % (Yn * (2 ^ W) ^ k) : Nat) : Int),
        shifted_y := ((Yn * (2 ^ W) ^ k : Nat) : Int),
        q_words := List.replicate k 0 ++ [Rn / (Yn * (2 ^ W) ^ k)],
        iterations := 0, checks := 0, branches := [false] }
      (Rn % (Yn * (2 ^ W) ^ k)) [Rn / (Yn * (2 ^ W) ^ k)] rfl (Nat.mod_lt _ hS) rfl rfl
    refine ⟨_, _, rfl, l4, ?_, ?_⟩
    · show ((Rn % (Yn * (2 ^ W) ^ k) % Yn : Nat) : Int) = (Rn : Int) % (Yn : Int)
      rw [Nat.mod_mul_right_mod]
      exact Int.natCast_mod _ _
    · show shr ((Rn % (Yn * (2 ^ W) ^ k) % Yn : Nat) : Int) _ = _
      rw [Nat.mod_mul_right_mod, shr_natCast, hsh']

/-- Witness of `normalization`, at `x = -7`, `y = 2` and 64-bit words. -/
theorem normalization_witness :
    (0 < 64 ∧ (2 : Int) ≠ 0) ∧
    (divide_shifts 64 (2 : Int) < 64 ∧
      sig_words 64 (divide_y 64 (2 : Int)) = sig_words 64 (2 : Int) ∧
      divide_t 64 (2 : Int) + 1 = sig_words 64 (2 : Int) ∧
      2 ^ (64 - 1) ≤ word_at 64 (divide_y 64 (2 : Int)) (divide_t 64 (2 : Int)) ∧
      word_at 64 (divide_y 64 (2 : Int)) (divide_t 64 (2 : Int)) < 2 ^ 64 ∧
      ∃ s0 s : LoopState, divide_entry 64 (-7 : Int) (2 : Int) = .ok s0 ∧
        digit_loop 64 (word_at 64 (divide_y 64 (2 : Int)) (divide_t 64 (2 : Int)))
          (word_at 64 (divide_y 64 (2 : Int)) (size_sub (divide_t 64 (2 : Int)) 1))
          (divide_t 64 (2 : Int)) (divide_n 64 (-7 : Int) (2 : Int)) s0 = .ok s ∧
        s.r = divide_r 64 (-7 : Int) (2 : Int) % divide_y 64 (2 : Int) ∧
        shr s.r (divide_shifts 64 (2 : Int)) = (((-7 : Int).natAbs % (2 : Int).natAbs : Nat) : Int)) :=
  ⟨⟨by decide, by decide⟩,
    normalization 64 (-7) 2 (by decide) (by decide)⟩

/-- Claim C17, as stated, fails: on the empty buffer, on a one-byte buffer and
on a buffer whose second half is zero, the entry point raises `DivideByZero`
(64-bit words). -/
theorem fuzz_entry_raises :
    LLVMFuzzerTestOneInput 64 [] = .error .DivideByZero ∧
    LLVMFuzzerTestOneInput 64 [5] = .error .DivideByZero ∧
    LLVMFuzzerTestOneInput 64 [5, 7, 0, 0] = .error .DivideByZero ∧
    LLVMFuzzerTestOneInput 64 [] ≠ .ok 0 := by
  refine ⟨rfl, rfl, rfl, ?_⟩
  intro h
  cases h

/-- Claim C17, amended: for every input buffer, the entry point decodes the first
`Size / 2` bytes as `x` and the next `Size / 2` bytes as `y` (unsigned
big-endian) and calls `divide(x, y)`; it returns 0 when `y` is nonzero, and
raises the `DivideByZero` of `divide` when `y` is zero, which is the case of
every buffer of fewer than two bytes. -/
theorem fuzz_entry (W : Nat) (Data : List Nat) (hW : 0 < W) :
    LLVMFuzzerTestOneInput W Data
      = (divide W (decode (Data.take (Data.length / 2)))
          (decode ((Data.drop (Data.length / 2)).take (Data.length / 2)))).bind
          (fun _ => .ok 0) ∧
    LLVMFuzzerTestOneInput W Data
      = (if decode ((Data.drop (Data.length / 2)).take (Data.length / 2)) = 0
          then .error .DivideByZero else .ok 0) ∧
    (Data.length < 2 → LLVMFuzzerTestOneInput W Data = .error .DivideByZero) := by
  have h1 : LLVMFuzzerTestOneInput W Data
      = (divide W (decode (Data.take (Data.length / 2)))
          (decode ((Data.drop (Data.length / 2)).take (Data.length / 2)))).bind
          (fun _ => .ok 0) := rfl
  have h2 : LLVMFuzzerTestOneInput W Data
      = (if decode ((Data.drop (Data.length / 2)).take (Data.length / 2)) = 0
          then .error .DivideByZero else .ok 0) := by
    rw [h1]
    split
    · rename_i h
      rw [h, divide_zero]
      rfl
    · rename_i h
      rw [divide_eq hW _ _ h]
      rfl
  refine ⟨h1, h2, fun hlen => ?_⟩
  rw [h2]
  have : Data.length / 2 = 0 := by omega
  rw [this]
  simp [decode]

/-- Witness of `fuzz_entry`, at the buffer `[1, 2, 3, 4]` and 64-bit words. -/
theorem fuzz_entry_witness :
    0 < 64 ∧
    (LLVMFuzzerTestOneInput 64 [1, 2, 3, 4]
        = (divide 64 (decode ([1, 2, 3, 4].take ([1, 2, 3, 4].length / 2)))
            (decode (([1, 2, 3, 4].drop ([1, 2, 3, 4].length / 2)).take ([1, 2, 3, 4].length / 2)))).bind
            (fun _ => .ok 0) ∧
      LLVMFuzzerTestOneInput 64 [1, 2, 3, 4]
        = (if decode (([1, 2, 3, 4].drop ([1, 2, 3, 4].length / 2)).take ([1, 2, 3, 4].length / 2)) = 0
            then .error .DivideByZero else .ok 0) ∧
      ([1, 2, 3, 4].length < 2 → LLVMFuzzerTestOneInput 64 [1, 2, 3, 4] = .error .DivideByZero)) :=
  ⟨by decide,
    fuzz_entry 64 [1, 2, 3, 4] (by decide)⟩

/-- Claim C18: for a nonzero divisor, the remainder returned by `divide` satisfies
`0 ≤ r < |y|`, whatever the sign of `x`; for a negative `x` with a nonzero
unsigned remainder `r0` it is `|y| - r0`; and `sign_fixup` turns no remainder
in that range into a negative one. -/
theorem divide_remainder_nonneg (W : Nat) (x y : Int) (hW : 0 < W) (hy : y ≠ 0) :
    (∃ q r : Int, divide W x y = .ok (q, r) ∧ 0 ≤ r ∧ r < |y| ∧
      (x < 0 → x.natAbs % y.natAbs ≠ 0 →
        r = |y| - ((x.natAbs % y.natAbs : Nat) : Int))) ∧
    ∀ q0 r0 : Int, 0 ≤ r0 → r0 < |y| →
      0 ≤ (sign_fixup x y q0 r0).2 ∧ (sign_fixup x y q0 r0).2 < |y| := by
  have hY := Int.natAbs_pos.mpr hy
  constructor
  · obtain ⟨_, e2⟩ := natAbs_div_mod x y hy
    obtain ⟨q, r, hd, c1, c2, c3⟩ := divide_result_cases hW x y hy
    refine ⟨q, r, hd, ?_⟩
    rw [Int.abs_eq_natAbs]
    generalize x.natAbs % y.natAbs = R at *
    generalize y.natAbs = Y at *
    by_cases hx : x < 0
    · by_cases hR : R = 0
      · rw [(c2 hx hR).2]
        exact ⟨le_refl _, by omega, fun _ h => absurd hR h⟩
      · rw [(c3 hx hR).2]
        exact ⟨by omega, by omega, fun _ _ => rfl⟩
    · rw [(c1 (by omega)).2]
      exact ⟨by omega, by omega, fun h => absurd h hx⟩
  · intro q0 r0 h0 h1
    rw [Int.abs_eq_natAbs] at h1 ⊢
    by_cases hx : x < 0
    · by_cases hr : r0 = 0
      · subst hr
        rw [sign_fixup_of_neg_zero x y q0 hx]
        exact ⟨le_refl _, h1⟩
      · rw [sign_fixup_of_neg x y q0 r0 hx hr]
        show (0 : Int) ≤ (y.natAbs : Int) - r0 ∧ (y.natAbs : Int) - r0 < (y.natAbs : Int)
        generalize y.natAbs = Y at *
        constructor <;> omega
    · rw [sign_fixup_of_nonneg x y q0 r0 (by omega)]
      exact ⟨h0, h1⟩

/-- Witness of `divide_remainder_nonneg`, at `x = -7`, `y = -2` and 64-bit words. -/
theorem divide_remainder_nonneg_witness :
    (0 < 64 ∧ (-2 : Int) ≠ 0) ∧
    ((∃ q r : Int, divide 64 (-7 : Int) (-2 : Int) = .ok (q, r) ∧ 0 ≤ r ∧ r < |(-2 : Int)| ∧
        ((-7 : Int) < 0 → (-7 : Int).natAbs % (-2 : Int).natAbs ≠ 0 →
          r = |(-2 : Int)| - (((-7 : Int).natAbs % (-2 : Int).natAbs : Nat) : Int))) ∧
      ∀ q0 r0 : Int, 0 ≤ r0 → r0 < |(-2 : Int)| →
        0 ≤ (sign_fixup (-7 : Int) (-2 : Int) q0 r0).2 ∧
          (sign_fixup (-7 : Int) (-2 : Int) q0 r0).2 < |(-2 : Int)|) :=
  ⟨⟨by decide, by decide⟩,
    divide_remainder_nonneg 64 (-7) (-2) (by decide) (by decide)⟩

/-- Claim C19: for a nonzero divisor, `y_words > 0` and `n ≥ t`, so that neither
`y_words - 1` nor `n - t + 1` wraps around; `divide` returns without a write
outside the quotient, whose `n - t + 1` words contain the index `n - t` and the
index `j - t - 1` of every `j` with `t < j ≤ n`, the indices of the loop's
iterations; and the reads `word_at(t - 1)` for `t = 0` and `word_at(j - 2)` for
`j = 1`, at the wrapped index `SIZE_MAX`, yield 0. -/
theorem divide_index_safety (W : Nat) (x y : Int) (hW : 0 < W) (hy : y ≠ 0) :
    0 < sig_words W y ∧ divide_t W y = sig_words W y - 1 ∧
    divide_t W y ≤ divide_n W x y ∧
    size_sub (divide_n W x y) (divide_t W y) = divide_n W x y - divide_t W y ∧
    (∃ run : Run, divide_run W x y = .ok run ∧
      run.q_size = size_sub (divide_n W x y) (divide_t W y) + 1) ∧
    size_sub (divide_n W x y) (divide_t W y) < divide_n W x y - divide_t W y + 1 ∧
    (∀ j : Nat, divide_t W y < j → j ≤ divide_n W x y →
      size_sub (size_sub j (divide_t W y)) 1 < divide_n W x y - divide_t W y + 1) ∧
    (∀ p ∈ divide_iterations W x y,
      divide_t W y < p.1 ∧ p.1 ≤ divide_n W x y ∧
      p.2.q_words.length = divide_n W x y - divide_t W y + 1) ∧
    (divide_t W y = 0 →
      size_sub (divide_t W y) 1 = SIZE_MAX ∧
      word_at W (divide_y W y) (size_sub (divide_t W y) 1) = 0) ∧
    (∀ p ∈ divide_iterations W x y, p.1 = 1 →
      size_sub p.1 2 = SIZE_MAX ∧ word_at W p.2.r (size_sub p.1 2) = 0) := by
  obtain ⟨e1, e2, e3, e4, e5, e6, e7, e8⟩ := divide_entry_spec hW x y hy
  have hB0 := two_pow_pos_word W
  have hsub : size_sub (divide_n W x y) (divide_t W y) = divide_n W x y - divide_t W y :=
    size_sub_of_le e4
  refine ⟨by omega, by omega, e4, hsub, ⟨_, divide_run_spec hW x y hy, by rw [hsub]⟩,
    by rw [hsub]; omega, ?_, ?_, ?_, ?_⟩
  · intro j h1 h2
    rw [size_sub_of_le (le_of_lt h1), size_sub_of_le (by omega)]
    omega
  · intro p hp
    obtain ⟨i, rn1, g1, g2, -, -, -, g6⟩ := (divide_iterations_spec hW x y hy).2 p hp
    exact ⟨by omega, by omega, g6⟩
  · intro ht
    rw [ht] at e5 ⊢
    refine ⟨by decide, ?_⟩
    rw [e1]
    apply word_at_eq_zero hW _ _ 1
    · rw [Int.natAbs_ofNat]
      simpa using e5
    · decide
  · intro p hp hp1
    obtain ⟨i, rn1, g1, g2, g3, g4, -, -⟩ := (divide_iterations_spec hW x y hy).2 p hp
    have ht : divide_t W y = 0 := by omega
    have hi : i = 0 := by omega
    subst hi
    rw [ht] at e5
    rw [hp1, g3]
    refine ⟨by decide, ?_⟩
    apply word_at_eq_zero hW _ _ 2
    · simp only [Int.natAbs_ofNat]
      simp only [Nat.zero_add, pow_one] at g4 e5
      calc rn1 < y.natAbs * 2 ^ divide_shifts W y * 2 ^ W := g4
        _ < 2 ^ W * 2 ^ W := Nat.mul_lt_mul_of_pos_right e5 hB0
        _ = (2 ^ W) ^ 2 := by ring
    · decide

/-- Witness of `divide_index_safety`, at `x = 7`, `y = 2` and 64-bit words. -/
theorem divide_index_safety_witness :
    (0 < 64 ∧ (2 : Int) ≠ 0) ∧
    (0 < sig_words 64 (2 : Int) ∧ divide_t 64 (2 : Int) = sig_words 64 (2 : Int) - 1 ∧
      divide_t 64 (2 : Int) ≤ divide_n 64 (7 : Int) (2 : Int) ∧
      size_sub (divide_n 64 (7 : Int) (2 : Int)) (divide_t 64 (2 : Int)) = divide_n 64 (7 : Int) (2 : Int) - divide_t 64 (2 : Int) ∧
      (∃ run : Run, divide_run 64 (7 : Int) (2 : Int) = .ok run ∧
        run.q_size = size_sub (divide_n 64 (7 : Int) (2 : Int)) (divide_t 64 (2 : Int)) + 1) ∧
      size_sub (divide_n 64 (7 : Int) (2 : Int)) (divide_t 64 (2 : Int)) < divide_n 64 (7 : Int) (2 : Int) - divide_t 64 (2 : Int) + 1 ∧
      (∀ j : Nat, divide_t 64 (2 : Int) < j → j ≤ divide_n 64 (7 : Int) (2 : Int) →
        size_sub (size_sub j (divide_t 64 (2 : Int))) 1 < divide_n 64 (7 : Int) (2 : Int) - divide_t 64 (2 : Int) + 1) ∧
      (∀ p ∈ divide_iterations 64 (7 : Int) (2 : Int),
        divide_t 64 (2 : Int) < p.1 ∧ p.1 ≤ divide_n 64 (7 : Int) (2 : Int) ∧
        p.2.q_words.length = divide_n 64 (7 : Int) (2 : Int) - divide_t 64 (2 : Int) + 1) ∧
      (divide_t 64 (2 : Int) = 0 →
        size_sub (divide_t 64 (2 : Int)) 1 = SIZE_MAX ∧
        word_at 64 (divide_y 64 (2 : Int)) (size_sub (divide_t 64 (2 : Int)) 1) = 0) ∧
      (∀ p ∈ divide_iterations 64 (7 : Int) (2 : Int), p.1 = 1 →
        size_sub p.1 2 = SIZE_MAX ∧ word_at 64 p.2.r (size_sub p.1 2) = 0)) :=
  ⟨⟨by decide, by decide⟩,
    divide_index_safety 64 7 2 (by decide) (by decide)⟩

/-- Claim C20: for a nonzero divisor, the digit loop of `divide` terminates after
exactly `n - t` iterations, those for `j = n` down to `t + 1`, where
`t = y_words - 1` and `n = max(y_words, sig_words of the normalised |x|) - 1`;
the count is the excess of the word count of the normalised `|x|` over that of
`y`, and the loop runs zero times when there is no excess. -/
theorem digit_loop_terminates (W : Nat) (x y : Int) (hW : 0 < W) (hy : y ≠ 0) :
    ∃ run : Run, divide_run W x y = .ok run ∧
      run.iterations = divide_n W x y - divide_t W y ∧
      (divide_iterations W x y).map Prod.fst
        = (List.range' (divide_t W y + 1) (divide_n W x y - divide_t W y)).reverse ∧
      divide_t W y = sig_words W y - 1 ∧
      divide_n W x y = max (sig_words W y) (sig_words W (divide_r W x y)) - 1 ∧
      run.iterations = sig_words W (divide_r W x y) - sig_words W (divide_y W y) ∧
      (sig_words W (divide_r W x y) ≤ sig_words W y →
        run.iterations = 0 ∧ divide_iterations W x y = []) := by
  obtain ⟨e1, e2, e3, e4, e5, e6, e7, e8⟩ := divide_entry_spec hW x y hy
  have hB0 := two_pow_pos_word W
  have hs := divide_iterations_spec hW x y hy
  have hyw := sig_words_pos hW y hy
  have hn : divide_n W x y = max (sig_words W y) (sig_words W (divide_r W x y)) - 1 := by
    unfold divide_n divide_r
    rw [size_sub_of_le (by omega)]
  have hyn : sig_words W (divide_y W y) = sig_words W y := by
    rw [e1, e3]
    apply le_antisymm
    · exact sig_words_le hW _ _ (by rw [Int.natAbs_ofNat]; exact e5)
    · by_contra hcon
      have h1 := lt_pow_sig_words hW ((y.natAbs * 2 ^ divide_shifts W y : Nat) : Int)
      rw [Int.natAbs_ofNat] at h1
      have h2 : (2 ^ W) ^ sig_words W ((y.natAbs * 2 ^ divide_shifts W y : Nat) : Int)
          ≤ (2 ^ W) ^ divide_t W y := Nat.pow_le_pow_right hB0 (by omega)
      have h3 : (2 ^ W) ^ divide_t W y ≤ y.natAbs * 2 ^ divide_shifts W y :=
        le_trans (Nat.le_mul_of_pos_left _ (Nat.pow_pos (by decide))) e6
      omega
  refine ⟨_, divide_run_spec hW x y hy, rfl, hs.1, by omega, hn, ?_, ?_⟩
  · show divide_n W x y - divide_t W y = _
    rw [hyn]; omega
  · intro hle
    have h0 : divide_n W x y - divide_t W y = 0 := by omega
    refine ⟨h0, ?_⟩
    have := hs.1
    rw [h0] at this
    simpa using this

/-- Witness of `digit_loop_terminates`, at `x = 123456789`, `y = 1234` and 8-bit words. -/
theorem digit_loop_terminates_witness :
    (0 < 8 ∧ (1234 : Int) ≠ 0) ∧
    (∃ run : Run, divide_run 8 (123456789 : Int) (1234 : Int) = .ok run ∧
        run.iterations = divide_n 8 (123456789 : Int) (1234 : Int) - divide_t 8 (1234 : Int) ∧
        (divide_iterations 8 (123456789 : Int) (1234 : Int)).map Prod.fst
          = (List.range' (divide_t 8 (1234 : Int) + 1) (divide_n 8 (123456789 : Int) (1234 : Int) - divide_t 8 (1234 : Int))).reverse ∧
        divide_t 8 (1234 : Int) = sig_words 8 (1234 : Int) - 1 ∧
        divide_n 8 (123456789 : Int) (1234 : Int) = max (sig_words 8 (1234 : Int)) (sig_words 8 (divide_r 8 (123456789 : Int) (1234 : Int))) - 1 ∧
        run.iterations = sig_words 8 (divide_r 8 (123456789 : Int) (1234 : Int)) - sig_words 8 (divide_y 8 (1234 : Int)) ∧
        (sig_words 8 (divide_r 8 (123456789 : Int) (1234 : Int)) ≤ sig_words 8 (1234 : Int) →
          run.iterations = 0 ∧ divide_iterations 8 (123456789 : Int) (1234 : Int) = [])) :=
  ⟨⟨by decide, by decide⟩,
    digit_loop_terminates 8 123456789 1234 (by decide) (by decide)⟩

/-! ## The conditions and word indices of a run of `divide` -/

/-- For a nonzero divisor, `divide` is its run up to the exit of the digit loop,
then the shift back and `sign_fixup`. -/
theorem divide_run_eq_exit {W : Nat} (hW : 0 < W) (x y : Int) (hy : y ≠ 0) :
    divide_run W x y
      = (divide_exit W x y).bind (fun s =>
            .ok { q := (sign_fixup x y ((words_value W s.q_words : Nat) : Int)
                          (shr s.r (divide_shifts W y))).1,
                  r := (sign_fixup x y ((words_value W s.q_words : Nat) : Int)
                          (shr s.r (divide_shifts W y))).2,
                  iterations := s.iterations, checks := s.checks,
                  q_size := s.q_words.length,
                  branches := s.branches
                    ++ sign_fixup_branches x (shr s.r (divide_shifts W y)) }) := by
  rw [divide_run_eq_loop hW x y hy]
  unfold divide_exit
  cases divide_entry W x y with
  | error e => rfl
  | ok s0 => rfl

end Botan
